import Mathlib

/-!
# SerialMsgProto: ring buffer and framing protocol

A shallow embedding of `src/C_version/ring_buffer.c` and
`src/C_version/xe_protocol.c`.

* Bytes (`uint8_t`) are natural numbers below 256; where the C code narrows a
  value to `uint8_t` or `uint16_t` the reduction is written out.
* `size_t` indices are natural numbers. `RingBuffer_Write` and
  `RingBuffer_Read` compute `(i + 1) % size` for an index `i`; whenever
  `i < size` (the only states in which `buffer[i]` is inside the array) the sum
  `i + 1` is at most `size` and cannot wrap.
* Arrays are lists; a store is `List.set`, a load is `List.getD _ _ 0`.
* The `static` variables of `Protocol_ParseByte` are the fields of `Parser`.
* Calls of `ProcessValidFrame` are recorded as a list of `Dispatch` values.
* `crc8_maxim` comes from `crcLib.h`, which is not part of the sources; the
  parser and the encoder take the checksum function as a parameter `crc8`.
-/

namespace SerialMsgProto

/-! ## ring_buffer.h / ring_buffer.c -/

/-- The struct `RingBuffer_t`; `buffer` is the array the pointer refers to. -/
structure RingBuffer where
  buffer : List Nat
  size : Nat
  head : Nat
  tail : Nat
  is_full : Bool
  deriving DecidableEq, Repr

/-- The function `RingBuffer_Init`: the struct is overwritten field by field. -/
def RingBuffer_Init (buffer : List Nat) (size : Nat) : RingBuffer :=
  { buffer := buffer, size := size, head := 0, tail := 0, is_full := false }

/-- How a call of `RingBuffer_Write` ends: it returns a boolean, or it enters
the `while(1)` loop of lines 50-53, which has no exit. In both cases the
struct as the call leaves it is recorded. -/
inductive WriteOutcome where
  | returned (ok : Bool) (rb : RingBuffer)
  | spins (rb : RingBuffer)
  deriving DecidableEq, Repr

/-- The function `RingBuffer_Write`. -/
def RingBuffer_Write (rb : RingBuffer) (byte : Nat) : WriteOutcome :=
  if rb.is_full then
    WriteOutcome.returned false rb
  else
    let rb1 := { rb with buffer := rb.buffer.set rb.tail byte }
    let rb2 := { rb1 with tail := (rb1.tail + 1) % rb1.size }
    if rb2.head = rb2.tail then
      WriteOutcome.spins { rb2 with is_full := true }
    else
      WriteOutcome.returned true rb2

/-- The function `RingBuffer_IsEmpty`. -/
def RingBuffer_IsEmpty (rb : RingBuffer) : Bool :=
  !rb.is_full && decide (rb.head = rb.tail)

/-- The function `RingBuffer_Read`. The argument `byte` is the value of
`*byte` before the call; the result is the returned boolean, the value of
`*byte` after the call and the struct after the call. -/
def RingBuffer_Read (rb : RingBuffer) (byte : Nat) : Bool × Nat × RingBuffer :=
  if RingBuffer_IsEmpty rb then
    (false, byte, rb)
  else
    let byte1 := rb.buffer.getD rb.head 0
    let rb1 := { rb with head := (rb.head + 1) % rb.size }
    (true, byte1, { rb1 with is_full := false })

/-- A run of `RingBuffer_Write` calls, one per byte, in order. The result is
`none` when one of the calls does not return; otherwise the list of returned
booleans and the final struct. -/
def writeAll : RingBuffer → List Nat → Option (List Bool × RingBuffer)
  | rb, [] => some ([], rb)
  | rb, b :: bs =>
    match RingBuffer_Write rb b with
    | WriteOutcome.spins _ => none
    | WriteOutcome.returned ok rb1 =>
      match writeAll rb1 bs with
      | none => none
      | some (oks, rb2) => some (ok :: oks, rb2)

/-- A run of `n` calls of `RingBuffer_Read`. Each call yields its returned
boolean and the byte left in `*byte`, which starts as `byte0`. -/
def readN : RingBuffer → Nat → Nat → List (Bool × Nat) × RingBuffer
  | rb, _, 0 => ([], rb)
  | rb, byte0, n + 1 =>
    match RingBuffer_Read rb byte0 with
    | (ok, byte1, rb1) =>
      match readN rb1 byte1 n with
      | (rs, rb2) => ((ok, byte1) :: rs, rb2)

/-! ## xe_protocol.h / xe_protocol.c -/

def FRAME_HEADER_1 : Nat := 0xAB
def FRAME_HEADER_2 : Nat := 0xCD
def MAX_PAYLOAD_SIZE : Nat := 255
def FRAME_BUFFER_SIZE : Nat := 1 + 1 + MAX_PAYLOAD_SIZE

/-- The enum `ParserState_e`. -/
inductive ParserState_e where
  | STATE_WAIT_HEADER_1
  | STATE_WAIT_HEADER_2
  | STATE_READ_TYPE
  | STATE_READ_LENGTH
  | STATE_READ_PAYLOAD
  | STATE_READ_CRC
  deriving DecidableEq, Repr

open ParserState_e

/-- The static variables of `Protocol_ParseByte`. -/
structure Parser where
  currentState : ParserState_e
  frame_buffer : List Nat
  received_type : Nat
  paylen_length : Nat
  buffer_index : Nat
  deriving DecidableEq, Repr

/-- The statics at program start: `currentState` has its initialiser, the
others are zero-initialised. -/
def Parser.fresh : Parser :=
  { currentState := STATE_WAIT_HEADER_1
    frame_buffer := List.replicate FRAME_BUFFER_SIZE 0
    received_type := 0
    paylen_length := 0
    buffer_index := 0 }

/-- One call `ProcessValidFrame(type, payload, len)`; `payload` holds the `len`
bytes the pointer argument refers to. -/
structure Dispatch where
  type : Nat
  payload : List Nat
  len : Nat
  deriving DecidableEq, Repr

/-- The statement `frame_buffer[buffer_index++] = byte` (`buffer_index` is a
`uint16_t`). -/
def Parser.store (p : Parser) (byte : Nat) : Parser :=
  { p with
    frame_buffer := p.frame_buffer.set p.buffer_index byte
    buffer_index := (p.buffer_index + 1) % 65536 }

/-- The function `Protocol_ParseByte`: the statics after the call and the calls
of `ProcessValidFrame` it made. -/
def Protocol_ParseByte (crc8 : List Nat → Nat) (p : Parser) (byte : Nat) :
    Parser × List Dispatch :=
  match p.currentState with
  | STATE_WAIT_HEADER_1 =>
    if byte = FRAME_HEADER_1 then
      ({ p with currentState := STATE_WAIT_HEADER_2 }, [])
    else
      (p, [])
  | STATE_WAIT_HEADER_2 =>
    if byte = FRAME_HEADER_2 then
      ({ p with buffer_index := 0, currentState := STATE_READ_TYPE }, [])
    else
      ({ p with currentState :=
          if byte = FRAME_HEADER_1 then STATE_WAIT_HEADER_2 else STATE_WAIT_HEADER_1 }, [])
  | STATE_READ_TYPE =>
    let p1 := { p with received_type := byte }
    let p2 := p1.store byte
    ({ p2 with currentState := STATE_READ_LENGTH }, [])
  | STATE_READ_LENGTH =>
    let p1 := { p with paylen_length := byte }
    if p1.paylen_length > MAX_PAYLOAD_SIZE then
      ({ p1 with currentState := STATE_WAIT_HEADER_1 }, [])
    else
      let p2 := p1.store byte
      if p2.paylen_length = 0 then
        ({ p2 with currentState := STATE_READ_CRC }, [])
      else
        ({ p2 with currentState := STATE_READ_PAYLOAD }, [])
  | STATE_READ_PAYLOAD =>
    let p1 := p.store byte
    if p1.buffer_index = p1.paylen_length + 2 then
      ({ p1 with currentState := STATE_READ_CRC }, [])
    else
      (p1, [])
  | STATE_READ_CRC =>
    let received_crc := byte
    let calculated_crc := crc8 (p.frame_buffer.take (p.paylen_length + 2)) % 256
    let calls :=
      if calculated_crc = received_crc then
        [{ type := p.received_type
           payload := (p.frame_buffer.drop 2).take p.paylen_length
           len := p.paylen_length : Dispatch }]
      else
        []
    ({ p with currentState := STATE_WAIT_HEADER_1 }, calls)

/-- The main loop of lines 22-27: every received byte is passed to
`Protocol_ParseByte`; the calls of `ProcessValidFrame` are collected in
order. -/
def feed (crc8 : List Nat → Nat) : Parser → List Nat → Parser × List Dispatch
  | p, [] => (p, [])
  | p, b :: bs =>
    match Protocol_ParseByte crc8 p b with
    | (p1, calls1) =>
      match feed crc8 p1 bs with
      | (p2, calls2) => (p2, calls1 ++ calls2)

/-- The payload loop of `Protocol_SendFrame`, lines 220-222: the bytes
`payload[i]` for `i` below `length`, in order. It is also what `memcpy` of
line 231 copies into `crc_buffer`. -/
def payloadBytes (payload : List Nat) (length : Nat) : List Nat :=
  (List.range length).map (fun i => payload.getD i 0)

/-- The function `Protocol_SendFrame`: the bytes passed to `Platform_SendByte`,
in order. The parameter `length` is a `uint8_t`. -/
def Protocol_SendFrame (crc8 : List Nat → Nat) (type : Nat) (payload : List Nat)
    (length : Nat) : List Nat :=
  if length > MAX_PAYLOAD_SIZE then
    []
  else
    let crc_buffer := type :: length :: payloadBytes payload length
    let crc := crc8 (crc_buffer.take (2 + length)) % 256
    [FRAME_HEADER_1, FRAME_HEADER_2, type, length] ++ payloadBytes payload length ++ [crc]

/-- The parser after the four bytes `0xAB, 0xCD, t, len`. -/
def afterHeader (p : Parser) (t len : Nat) : Parser :=
  { currentState := if len = 0 then STATE_READ_CRC else STATE_READ_PAYLOAD
    frame_buffer := (p.frame_buffer.set 0 t).set 1 len
    received_type := t
    paylen_length := len
    buffer_index := 2 }


/-- A parser state reachable from the initial statics: the statics after some
finite sequence of bytes has been passed to `Protocol_ParseByte`. -/
def Reachable (crc8 : List Nat → Nat) (p : Parser) : Prop :=
  ∃ bs : List Nat, (∀ b ∈ bs, b < 256) ∧ (feed crc8 Parser.fresh bs).1 = p

/-- The invariant of the statics of `Protocol_ParseByte` used in the proofs. -/
def ParserInv (p : Parser) : Prop :=
  p.frame_buffer.length = FRAME_BUFFER_SIZE ∧
  p.paylen_length ≤ 255 ∧
  p.buffer_index ≤ p.paylen_length + 2 ∧
  match p.currentState with
  | STATE_WAIT_HEADER_1 => True
  | STATE_WAIT_HEADER_2 => True
  | STATE_READ_TYPE => p.buffer_index = 0
  | STATE_READ_LENGTH => p.buffer_index = 1
  | STATE_READ_PAYLOAD => 2 ≤ p.buffer_index ∧ p.buffer_index < p.paylen_length + 2
  | STATE_READ_CRC => p.buffer_index = p.paylen_length + 2

/-! ## The checksum of the spec and bit corruption -/

/-- Modelled from the spec: the checksum function `crc8_maxim` of `crcLib.h`,
which is not part of the sources. The spec fixes it as CRC-8/MAXIM: polynomial
`0x31`, initial value `0x00`, input and output reflected, no final XOR. In the
reflected form the register moves right one bit at a time and the bit-reversed
polynomial `0x8C` is XORed in whenever the bit moved out is 1. This is the step
for one bit. -/
def crc8_maxim_bit (crc : Nat) : Nat :=
  if crc % 2 = 1 then (crc / 2) ^^^ 0x8C else crc / 2

/-- Modelled from the spec: CRC-8/MAXIM, the step for one input byte: the byte
is XORed into the register, then eight bit steps follow. -/
def crc8_maxim_byte (crc byte : Nat) : Nat :=
  crc8_maxim_bit^[8] (crc ^^^ byte)

/-- Modelled from the spec: CRC-8/MAXIM over a byte sequence, register
initially `0x00`, no final XOR. -/
def crc8_maxim (data : List Nat) : Nat :=
  data.foldl crc8_maxim_byte 0

/-- The inverse of `crc8_maxim_bit` on bytes. -/
def crc8_maxim_unbit (crc : Nat) : Nat :=
  if 128 ≤ crc then 2 * (crc ^^^ 0x8C) + 1 else 2 * crc

/-- A byte sequence with bit `k` of the byte at index `i` inverted. -/
def flipBit (frame : List Nat) (i k : Nat) : List Nat :=
  frame.set i (frame.getD i 0 ^^^ 2 ^ k)

/-- The bytes passed to the byte sink by one call of `Protocol_SendFrame` per
`(type, payload)` pair, in list order; each call gets the length of its
payload. -/
def sendAll (crc8 : List Nat → Nat) : List (Nat × List Nat) → List Nat
  | [] => []
  | f :: fs => Protocol_SendFrame crc8 f.1 f.2 f.2.length ++ sendAll crc8 fs

/-- The enumerator `DRONE_POSITION` of `DataType_e`. -/
def DRONE_POSITION : Nat := 0x01

/-- A call of one of the message handlers. -/
inductive HandlerCall where
  | HandleDronePosition (payload : List Nat) (len : Nat)
  | HandleUnknownType (type : Nat)
  deriving DecidableEq, Repr

/-- The function `ProcessValidFrame`: the handler calls its `switch` makes.
The argument `payload` holds the bytes the pointer refers to. -/
def ProcessValidFrame (type : Nat) (payload : List Nat) (len : Nat) : List HandlerCall :=
  if type = DRONE_POSITION then
    [HandlerCall.HandleDronePosition payload len]
  else
    [HandlerCall.HandleUnknownType type]

/-- What one call of `Protocol_ParseByte` does: the statics after the call,
the calls of `ProcessValidFrame`, the indices of `frame_buffer` it stores at,
and the byte counts it passes to `crc8_maxim` together with `frame_buffer`. -/
structure StepRecord where
  next : Parser
  calls : List Dispatch
  stores : List Nat
  crcLens : List Nat
  deriving DecidableEq, Repr

/-- The function `Protocol_ParseByte` of a build in which xe_protocol.h line 7
defines `MAX_PAYLOAD_SIZE` as `M`, with every access to `frame_buffer`
recorded. -/
def Protocol_ParseByteM (M : Nat) (crc8 : List Nat → Nat) (p : Parser) (byte : Nat) :
    StepRecord :=
  match p.currentState with
  | STATE_WAIT_HEADER_1 =>
    if byte = FRAME_HEADER_1 then
      { next := { p with currentState := STATE_WAIT_HEADER_2 }
        calls := [], stores := [], crcLens := [] }
    else
      { next := p, calls := [], stores := [], crcLens := [] }
  | STATE_WAIT_HEADER_2 =>
    if byte = FRAME_HEADER_2 then
      { next := { p with buffer_index := 0, currentState := STATE_READ_TYPE }
        calls := [], stores := [], crcLens := [] }
    else
      { next := { p with currentState :=
          if byte = FRAME_HEADER_1 then STATE_WAIT_HEADER_2 else STATE_WAIT_HEADER_1 }
        calls := [], stores := [], crcLens := [] }
  | STATE_READ_TYPE =>
    let p1 := { p with received_type := byte }
    let p2 := p1.store byte
    { next := { p2 with currentState := STATE_READ_LENGTH }
      calls := [], stores := [p1.buffer_index], crcLens := [] }
  | STATE_READ_LENGTH =>
    let p1 := { p with paylen_length := byte }
    if p1.paylen_length > M then
      { next := { p1 with currentState := STATE_WAIT_HEADER_1 }
        calls := [], stores := [], crcLens := [] }
    else
      let p2 := p1.store byte
      if p2.paylen_length = 0 then
        { next := { p2 with currentState := STATE_READ_CRC }
          calls := [], stores := [p1.buffer_index], crcLens := [] }
      else
        { next := { p2 with currentState := STATE_READ_PAYLOAD }
          calls := [], stores := [p1.buffer_index], crcLens := [] }
  | STATE_READ_PAYLOAD =>
    let p1 := p.store byte
    if p1.buffer_index = p1.paylen_length + 2 then
      { next := { p1 with currentState := STATE_READ_CRC }
        calls := [], stores := [p.buffer_index], crcLens := [] }
    else
      { next := p1, calls := [], stores := [p.buffer_index], crcLens := [] }
  | STATE_READ_CRC =>
    let received_crc := byte
    let calculated_crc := crc8 (p.frame_buffer.take (p.paylen_length + 2)) % 256
    let calls :=
      if calculated_crc = received_crc then
        [{ type := p.received_type
           payload := (p.frame_buffer.drop 2).take p.paylen_length
           len := p.paylen_length : Dispatch }]
      else
        []
    { next := { p with currentState := STATE_WAIT_HEADER_1 }
      calls := calls, stores := [], crcLens := [p.paylen_length + 2] }

/-- The statics at program start in that build: `frame_buffer` has
`FRAME_BUFFER_SIZE = 1 + 1 + M` bytes. -/
def Parser.freshM (M : Nat) : Parser :=
  { currentState := STATE_WAIT_HEADER_1
    frame_buffer := List.replicate (1 + 1 + M) 0
    received_type := 0
    paylen_length := 0
    buffer_index := 0 }

/-- The statics after a byte sequence has been passed to
`Protocol_ParseByteM`, one byte per call. -/
def feedM (M : Nat) (crc8 : List Nat → Nat) : Parser → List Nat → Parser
  | p, [] => p
  | p, b :: bs => feedM M crc8 (Protocol_ParseByteM M crc8 p b).next bs

/-- A parser state of that build reachable from its initial statics. -/
def ReachableM (M : Nat) (crc8 : List Nat → Nat) (p : Parser) : Prop :=
  ∃ bs : List Nat, (∀ b ∈ bs, b < 256) ∧ feedM M crc8 (Parser.freshM M) bs = p

/-- The invariant of the statics in that build. -/
def ParserInvM (M : Nat) (p : Parser) : Prop :=
  p.frame_buffer.length = M + 2 ∧
  match p.currentState with
  | STATE_WAIT_HEADER_1 => True
  | STATE_WAIT_HEADER_2 => True
  | STATE_READ_TYPE => p.buffer_index = 0
  | STATE_READ_LENGTH => p.buffer_index = 1
  | STATE_READ_PAYLOAD =>
    2 ≤ p.buffer_index ∧ p.buffer_index < p.paylen_length + 2 ∧ p.paylen_length ≤ M
  | STATE_READ_CRC => p.paylen_length ≤ M

/-- Two parser states that agree on everything a later step can read: the same
`currentState` and, per state, the fields written since the last header.
The rest of `frame_buffer`, `received_type`, `paylen_length` and
`buffer_index` may differ. -/
def SameParse (p q : Parser) : Prop :=
  p.currentState = q.currentState ∧
  p.frame_buffer.length = FRAME_BUFFER_SIZE ∧
  q.frame_buffer.length = FRAME_BUFFER_SIZE ∧
  match p.currentState with
  | STATE_WAIT_HEADER_1 => True
  | STATE_WAIT_HEADER_2 => True
  | STATE_READ_TYPE => p.buffer_index = 0 ∧ q.buffer_index = 0
  | STATE_READ_LENGTH =>
    p.buffer_index = 1 ∧ q.buffer_index = 1 ∧ p.received_type = q.received_type ∧
      p.frame_buffer.take 1 = q.frame_buffer.take 1
  | STATE_READ_PAYLOAD =>
    p.buffer_index = q.buffer_index ∧ 2 ≤ p.buffer_index ∧
      p.buffer_index < p.paylen_length + 2 ∧ p.paylen_length ≤ 255 ∧
      p.paylen_length = q.paylen_length ∧ p.received_type = q.received_type ∧
      p.frame_buffer.take p.buffer_index = q.frame_buffer.take p.buffer_index
  | STATE_READ_CRC =>
    p.paylen_length = q.paylen_length ∧ p.paylen_length ≤ 255 ∧
      p.received_type = q.received_type ∧
      p.frame_buffer.take (p.paylen_length + 2) = q.frame_buffer.take (p.paylen_length + 2)

/-- The index predicate of the ring buffer: both indices inside the array, and
a set `is_full` only with `head = tail`. -/
def IndexInv (rb : RingBuffer) : Prop :=
  rb.head < rb.size ∧ rb.tail < rb.size ∧ (rb.is_full = true → rb.head = rb.tail)

/-- One call in an interleaving of producer calls (`RingBuffer_Write`) and
consumer calls (`RingBuffer_Read`). -/
inductive Op where
  | write (byte : Nat)
  | read
  deriving DecidableEq, Repr

/-- What the caller sees of one call that returned: for a write its byte and
the returned boolean, for a read the returned boolean and the value of
`*byte` after the call. -/
inductive Event where
  | wrote (byte : Nat) (ok : Bool)
  | readOut (ok : Bool) (byte : Nat)
  deriving DecidableEq, Repr

/-- A run of calls on one buffer, in order; `byte` is the consumer's variable
that `RingBuffer_Read` writes to. The result is `none` when one of the writes
does not return. -/
def runOps : RingBuffer → Nat → List Op → Option (List Event × RingBuffer)
  | rb, _, [] => some ([], rb)
  | rb, byte, Op.write b :: ops =>
    match RingBuffer_Write rb b with
    | WriteOutcome.spins _ => none
    | WriteOutcome.returned ok rb1 =>
      match runOps rb1 byte ops with
      | none => none
      | some (evs, rb2) => some (Event.wrote b ok :: evs, rb2)
  | rb, byte, Op.read :: ops =>
    match RingBuffer_Read rb byte with
    | (ok, byte1, rb1) =>
      match runOps rb1 byte1 ops with
      | none => none
      | some (evs, rb2) => some (Event.readOut ok byte1 :: evs, rb2)

/-- The bytes accepted by the successful writes of a run, in order. -/
def accepted : List Event → List Nat
  | [] => []
  | Event.wrote b true :: evs => b :: accepted evs
  | _ :: evs => accepted evs

/-- The bytes output by the successful reads of a run, in order. -/
def delivered : List Event → List Nat
  | [] => []
  | Event.readOut true b :: evs => b :: delivered evs
  | _ :: evs => delivered evs

/-- The abstract first-in first-out queue of the claim, as a list: a write
appends its byte and succeeds, a read removes and returns the oldest byte, or
fails on the empty list and leaves the consumer's variable as it is. -/
def fifoRun : List Nat → Nat → List Op → List Event
  | _, _, [] => []
  | q, byte, Op.write b :: ops => Event.wrote b true :: fifoRun (q ++ [b]) byte ops
  | [], byte, Op.read :: ops => Event.readOut false byte :: fifoRun [] byte ops
  | x :: q, _, Op.read :: ops => Event.readOut true x :: fifoRun q x ops

/-- The `n` bytes stored from index `head` on, with the index wrapping at
`size`. -/
def queuedFrom (buffer : List Nat) (size : Nat) : Nat → Nat → List Nat
  | _, 0 => []
  | head, n + 1 => buffer.getD head 0 :: queuedFrom buffer size ((head + 1) % size) n

/-- The ring buffer holds `n` queued bytes: the indices are inside the array
of `size` bytes, `is_full` is clear, `tail` is `n` places after `head`, and
`n` is below `size`. -/
def Holds (rb : RingBuffer) (n : Nat) : Prop :=
  rb.buffer.length = rb.size ∧ rb.head < rb.size ∧ rb.tail < rb.size ∧
  rb.is_full = false ∧ (rb.head + n) % rb.size = rb.tail ∧ n < rb.size

/-! ## Lemmas: ring buffer -/

theorem take_succ_set (l : List Nat) (n b : Nat) (h : n < l.length) :
    (l.set n b).take (n + 1) = l.take n ++ [b] := by
  induction l generalizing n with
  | nil => simp at h
  | cons a l ih =>
    cases n with
    | zero => simp
    | succ n =>
      simp only [List.length_cons, Nat.add_lt_add_iff_right] at h
      simp [ih n h]

theorem write_not_full (rb : RingBuffer) (byte : Nat) (hf : rb.is_full = false)
    (hne : rb.head ≠ (rb.tail + 1) % rb.size) :
    RingBuffer_Write rb byte =
      WriteOutcome.returned true
        { rb with buffer := rb.buffer.set rb.tail byte, tail := (rb.tail + 1) % rb.size } := by
  unfold RingBuffer_Write
  simp [hf, hne]

theorem write_meets_head (rb : RingBuffer) (byte : Nat) (hf : rb.is_full = false)
    (he : rb.head = (rb.tail + 1) % rb.size) :
    RingBuffer_Write rb byte =
      WriteOutcome.spins
        { rb with buffer := rb.buffer.set rb.tail byte, tail := (rb.tail + 1) % rb.size,
                  is_full := true } := by
  unfold RingBuffer_Write
  simp [hf, he]

/-- Writes into a buffer whose head is 0 and that keeps at least one slot free. -/
theorem writeAll_from_zero (bs : List Nat) :
    ∀ rb : RingBuffer, rb.head = 0 → rb.is_full = false → rb.buffer.length = rb.size →
      rb.tail + bs.length < rb.size →
      ∃ buf, writeAll rb bs =
          some (List.replicate bs.length true,
            { rb with buffer := buf, tail := rb.tail + bs.length }) ∧
        buf.length = rb.size ∧
        buf.take (rb.tail + bs.length) = rb.buffer.take rb.tail ++ bs := by
  induction bs with
  | nil =>
    intro rb _ _ hlen _
    exact ⟨rb.buffer, by simp [writeAll], hlen, by simp⟩
  | cons b bs ih =>
    intro rb hh hf hlen hlt
    simp only [List.length_cons] at hlt
    have hmod : (rb.tail + 1) % rb.size = rb.tail + 1 := Nat.mod_eq_of_lt (by omega)
    have hne : rb.head ≠ (rb.tail + 1) % rb.size := by rw [hmod, hh]; omega
    obtain ⟨buf, h1, h2, h3⟩ := ih
      { rb with buffer := rb.buffer.set rb.tail b, tail := (rb.tail + 1) % rb.size }
      hh hf (by simp [hlen]) (by simp only [hmod]; omega)
    refine ⟨buf, ?_, by simpa using h2, ?_⟩
    · simp only [hmod] at h1
      simp only [writeAll, write_not_full rb b hf hne, hmod, h1, List.length_cons,
        List.replicate_succ, Nat.add_assoc, Nat.add_comm 1]
    · simp only [hmod] at h3
      rw [take_succ_set _ _ _ (by omega)] at h3
      simp only [List.length_cons]
      rw [show rb.tail + (bs.length + 1) = rb.tail + 1 + bs.length by omega, h3]
      simp

/-- Reads from a buffer that is not full and whose head is below its tail. -/
theorem readN_below_tail (n : Nat) :
    ∀ (rb : RingBuffer) (byte0 : Nat), rb.is_full = false → rb.head + n = rb.tail →
      rb.tail < rb.size → rb.buffer.length = rb.size →
      (readN rb byte0 n).1 = ((rb.buffer.drop rb.head).take n).map (fun b => (true, b)) ∧
      (readN rb byte0 n).2 = { rb with head := rb.tail } := by
  induction n with
  | zero =>
    intro rb byte0 _ h _ _
    simp only [Nat.add_zero] at h
    cases rb
    simp only at h
    simp [readN, h]
  | succ n ih =>
    intro rb byte0 hf hht hts hlen
    have hmod : (rb.head + 1) % rb.size = rb.head + 1 := Nat.mod_eq_of_lt (by omega)
    have hne : RingBuffer_IsEmpty rb = false := by
      simp [RingBuffer_IsEmpty, hf]; omega
    have hrd : RingBuffer_Read rb byte0 =
        (true, rb.buffer.getD rb.head 0, { rb with head := rb.head + 1, is_full := false }) := by
      simp [RingBuffer_Read, hne, hmod]
    obtain ⟨h1, h2⟩ := ih { rb with head := rb.head + 1, is_full := false }
      (rb.buffer.getD rb.head 0) rfl (by simp only; omega) hts hlen
    have hlt : rb.head < rb.buffer.length := by omega
    constructor
    · simp only [readN, hrd, h1]
      rw [List.drop_eq_getElem_cons hlt, List.take_succ_cons, List.map_cons]
      simp [List.getD_eq_getElem?_getD, List.getElem?_eq_getElem hlt]
    · simp only [readN, hrd, h2]
      simp [hf]

/-! ## Lemmas: parser -/

theorem feed_nil (crc8 : List Nat → Nat) (p : Parser) : feed crc8 p [] = (p, []) := rfl

theorem feed_cons (crc8 : List Nat → Nat) (p : Parser) (b : Nat) (bs : List Nat) :
    feed crc8 p (b :: bs) =
      ((feed crc8 (Protocol_ParseByte crc8 p b).1 bs).1,
        (Protocol_ParseByte crc8 p b).2 ++ (feed crc8 (Protocol_ParseByte crc8 p b).1 bs).2) := rfl

theorem payloadBytes_length (payload : List Nat) :
    payloadBytes payload payload.length = payload := by
  unfold payloadBytes
  apply List.ext_getElem
  · simp
  · intro n h1 h2
    simp [List.getD_eq_getElem?_getD, List.getElem?_eq_getElem h2]

theorem feed_append (crc8 : List Nat → Nat) (xs ys : List Nat) (p : Parser) :
    feed crc8 p (xs ++ ys) =
      ((feed crc8 (feed crc8 p xs).1 ys).1,
        (feed crc8 p xs).2 ++ (feed crc8 (feed crc8 p xs).1 ys).2) := by
  induction xs generalizing p with
  | nil => simp [feed_nil]
  | cons x xs ih =>
    rw [List.cons_append, feed_cons, feed_cons, ih]
    simp [List.append_assoc]

theorem step_payload_more (crc8 : List Nat → Nat) (p : Parser) (b : Nat)
    (hs : p.currentState = STATE_READ_PAYLOAD)
    (hi : (p.store b).buffer_index ≠ (p.store b).paylen_length + 2) :
    Protocol_ParseByte crc8 p b = (p.store b, []) := by
  unfold Protocol_ParseByte
  rw [hs]
  exact if_neg hi

theorem step_payload_last (crc8 : List Nat → Nat) (p : Parser) (b : Nat)
    (hs : p.currentState = STATE_READ_PAYLOAD)
    (hi : (p.store b).buffer_index = (p.store b).paylen_length + 2) :
    Protocol_ParseByte crc8 p b =
      ({ p.store b with currentState := STATE_READ_CRC }, []) := by
  unfold Protocol_ParseByte
  rw [hs]
  exact if_pos hi

/-- The payload phase. -/
theorem feed_payload (crc8 : List Nat → Nat) (rest : List Nat) :
    ∀ (p : Parser), p.currentState = STATE_READ_PAYLOAD →
      p.frame_buffer.length = FRAME_BUFFER_SIZE →
      p.paylen_length ≤ 255 →
      rest ≠ [] →
      p.buffer_index + rest.length = p.paylen_length + 2 →
      (feed crc8 p rest).2 = [] ∧
      (feed crc8 p rest).1.currentState = STATE_READ_CRC ∧
      (feed crc8 p rest).1.received_type = p.received_type ∧
      (feed crc8 p rest).1.paylen_length = p.paylen_length ∧
      (feed crc8 p rest).1.buffer_index = p.paylen_length + 2 ∧
      (feed crc8 p rest).1.frame_buffer.length = FRAME_BUFFER_SIZE ∧
      (feed crc8 p rest).1.frame_buffer.take (p.paylen_length + 2) =
        p.frame_buffer.take p.buffer_index ++ rest := by
  induction rest with
  | nil => intro p _ _ _ h; exact absurd rfl h
  | cons b rs ih =>
    intro p hs hlen hL _ hidx
    have hk : p.buffer_index < p.frame_buffer.length := by
      rw [hlen]; simp [FRAME_BUFFER_SIZE, MAX_PAYLOAD_SIZE] at *; omega
    have hmod : (p.buffer_index + 1) % 65536 = p.buffer_index + 1 := by
      simp at hidx; omega
    cases rs with
    | nil =>
      have hi : p.buffer_index + 1 = p.paylen_length + 2 := by simpa using hidx
      rw [feed_cons, step_payload_last crc8 p b hs (by simp only [Parser.store]; rw [hmod]; exact hi), feed_nil]
      simp only [Parser.store, hmod, List.append_nil, List.length_set]
      refine ⟨trivial, trivial, trivial, trivial, hi, hlen, ?_⟩
      rw [← hi, take_succ_set _ _ _ hk]
    | cons b2 rs2 =>
      have hi : p.buffer_index + 1 ≠ p.paylen_length + 2 := by
        simp at hidx; omega
      rw [feed_cons, step_payload_more crc8 p b hs (by simp only [Parser.store]; rw [hmod]; exact hi)]
      have := ih (p.store b) (by simp [Parser.store, hs]) (by simp [Parser.store, hlen])
        (by simpa [Parser.store] using hL) (by simp)
        (by simp [Parser.store, hmod] at hidx ⊢; omega)
      obtain ⟨h1, h2, h3, h4, h5, h6, h7⟩ := this
      refine ⟨by simp [h1], h2, h3, h4, h5, h6, ?_⟩
      simp only [Parser.store] at h7 ⊢
      rw [h7, hmod, take_succ_set _ _ _ hk]
      simp

theorem step_crc (crc8 : List Nat → Nat) (p : Parser) (b : Nat)
    (hs : p.currentState = STATE_READ_CRC) :
    Protocol_ParseByte crc8 p b =
      ({ p with currentState := STATE_WAIT_HEADER_1 },
        if crc8 (p.frame_buffer.take (p.paylen_length + 2)) % 256 = b then
          [{ type := p.received_type
             payload := (p.frame_buffer.drop 2).take p.paylen_length
             len := p.paylen_length : Dispatch }]
        else []) := by
  unfold Protocol_ParseByte
  rw [hs]

theorem step_header1_hit (crc8 : List Nat → Nat) (p : Parser)
    (hs : p.currentState = STATE_WAIT_HEADER_1) :
    Protocol_ParseByte crc8 p 0xAB = ({ p with currentState := STATE_WAIT_HEADER_2 }, []) := by
  unfold Protocol_ParseByte
  rw [hs]
  rfl

theorem step_header1_miss (crc8 : List Nat → Nat) (p : Parser) (b : Nat)
    (hs : p.currentState = STATE_WAIT_HEADER_1) (hb : b ≠ 0xAB) :
    Protocol_ParseByte crc8 p b = (p, []) := by
  unfold Protocol_ParseByte
  rw [hs]
  exact if_neg hb

theorem step_header2_hit (crc8 : List Nat → Nat) (p : Parser)
    (hs : p.currentState = STATE_WAIT_HEADER_2) :
    Protocol_ParseByte crc8 p 0xCD =
      ({ p with buffer_index := 0, currentState := STATE_READ_TYPE }, []) := by
  unfold Protocol_ParseByte
  rw [hs]
  rfl

theorem step_header2_again (crc8 : List Nat → Nat) (p : Parser)
    (hs : p.currentState = STATE_WAIT_HEADER_2) :
    Protocol_ParseByte crc8 p 0xAB = ({ p with currentState := STATE_WAIT_HEADER_2 }, []) := by
  unfold Protocol_ParseByte
  rw [hs]
  rfl

theorem step_header2_miss (crc8 : List Nat → Nat) (p : Parser) (b : Nat)
    (hs : p.currentState = STATE_WAIT_HEADER_2) (hb1 : b ≠ 0xAB) (hb2 : b ≠ 0xCD) :
    Protocol_ParseByte crc8 p b = ({ p with currentState := STATE_WAIT_HEADER_1 }, []) := by
  unfold Protocol_ParseByte
  rw [hs]
  simp only [FRAME_HEADER_1, FRAME_HEADER_2]
  rw [if_neg hb2, if_neg hb1]

theorem step_type (crc8 : List Nat → Nat) (p : Parser) (b : Nat)
    (hs : p.currentState = STATE_READ_TYPE) :
    Protocol_ParseByte crc8 p b =
      ({ p with currentState := STATE_READ_LENGTH
                frame_buffer := p.frame_buffer.set p.buffer_index b
                received_type := b
                buffer_index := (p.buffer_index + 1) % 65536 }, []) := by
  unfold Protocol_ParseByte
  rw [hs]
  rfl

theorem step_length_zero (crc8 : List Nat → Nat) (p : Parser)
    (hs : p.currentState = STATE_READ_LENGTH) :
    Protocol_ParseByte crc8 p 0 =
      ({ p with currentState := STATE_READ_CRC
                frame_buffer := p.frame_buffer.set p.buffer_index 0
                paylen_length := 0
                buffer_index := (p.buffer_index + 1) % 65536 }, []) := by
  unfold Protocol_ParseByte
  rw [hs]
  rfl

theorem step_length_pos (crc8 : List Nat → Nat) (p : Parser) (b : Nat)
    (hs : p.currentState = STATE_READ_LENGTH) (h0 : b ≠ 0) (hb : b ≤ 255) :
    Protocol_ParseByte crc8 p b =
      ({ p with currentState := STATE_READ_PAYLOAD
                frame_buffer := p.frame_buffer.set p.buffer_index b
                paylen_length := b
                buffer_index := (p.buffer_index + 1) % 65536 }, []) := by
  have h1 : ¬ b > MAX_PAYLOAD_SIZE := by simp only [MAX_PAYLOAD_SIZE]; omega
  unfold Protocol_ParseByte
  rw [hs]
  simp only []
  rw [if_neg h1]
  simp only [Parser.store]
  rw [if_neg h0]

theorem feed_header2 (crc8 : List Nat → Nat) (p : Parser) (t len : Nat)
    (hs : p.currentState = STATE_WAIT_HEADER_2) (hlen : len ≤ 255) :
    feed crc8 p [0xCD, t, len] = (afterHeader p t len, []) := by
  rw [feed_cons, step_header2_hit crc8 p hs, feed_cons, step_type crc8 _ t rfl, feed_cons]
  by_cases h0 : len = 0
  · subst h0
    rw [step_length_zero crc8 _ rfl, feed_nil]
    rfl
  · rw [step_length_pos crc8 _ len rfl h0 hlen, feed_nil]
    simp [afterHeader, h0]

theorem feed_header (crc8 : List Nat → Nat) (p : Parser) (t len : Nat)
    (hs : p.currentState = STATE_WAIT_HEADER_1) (hlen : len ≤ 255) :
    feed crc8 p [0xAB, 0xCD, t, len] = (afterHeader p t len, []) := by
  rw [feed_cons, step_header1_hit crc8 p hs]
  simp only [List.nil_append]
  rw [feed_header2 crc8 _ t len rfl hlen]
  rfl

theorem take_two_set_set (l : List Nat) (a b : Nat) (h : 2 ≤ l.length) :
    ((l.set 0 a).set 1 b).take 2 = [a, b] := by
  match l, h with
  | _ :: _ :: _, _ => simp

theorem drop_two_take (l : List Nat) (n a b : Nat) (rest : List Nat)
    (h : l.take (n + 2) = a :: b :: rest) :
    (l.drop 2).take n = rest := by
  match l, h with
  | x :: y :: l2, h =>
    simp only [List.take_succ_cons, List.cons.injEq] at h
    simp only [List.drop_succ_cons, List.drop_zero]
    exact h.2.2

/-- The bytes after a frame header, fed to the parser that has just stored the
type and the length: the payload and one checksum byte. -/
theorem feed_body (crc8 : List Nat → Nat) (p : Parser) (t c : Nat) (payload : List Nat)
    (hfb : p.frame_buffer.length = FRAME_BUFFER_SIZE)
    (hlen : payload.length ≤ 255) :
    (feed crc8 (afterHeader p t payload.length) (payload ++ [c])).2 =
        (if crc8 (t :: payload.length :: payload) % 256 = c then
          [{ type := t, payload := payload, len := payload.length : Dispatch }]
        else []) ∧
      (feed crc8 (afterHeader p t payload.length) (payload ++ [c])).1.currentState =
        STATE_WAIT_HEADER_1 ∧
      (feed crc8 (afterHeader p t payload.length)
        (payload ++ [c])).1.frame_buffer.length = FRAME_BUFFER_SIZE := by
  have hfb2 : 2 ≤ p.frame_buffer.length := by rw [hfb]; simp [FRAME_BUFFER_SIZE]
  by_cases h0 : payload = []
  · subst h0
    have hst : (afterHeader p t 0).currentState = STATE_READ_CRC := by simp [afterHeader]
    simp only [List.length_nil, List.nil_append, feed_cons, feed_nil,
      step_crc crc8 _ c hst, List.append_nil]
    simp [afterHeader, hfb, take_two_set_set _ _ _ hfb2]
  · have hne : payload.length ≠ 0 := by simpa using h0
    have hst : (afterHeader p t payload.length).currentState = STATE_READ_PAYLOAD := by
      simp [afterHeader, hne]
    obtain ⟨h1, h2, h3, h4, h5, h6, h7⟩ :=
      feed_payload crc8 payload (afterHeader p t payload.length) hst
        (by simp [afterHeader, hfb]) (by simpa [afterHeader] using hlen) h0
        (by simp [afterHeader]; omega)
    have e3 : (afterHeader p t payload.length).received_type = t := rfl
    have e4 : (afterHeader p t payload.length).paylen_length = payload.length := rfl
    have e5 : (afterHeader p t payload.length).buffer_index = 2 := rfl
    have e7 : (afterHeader p t payload.length).frame_buffer.take 2 = [t, payload.length] :=
      take_two_set_set _ _ _ hfb2
    rw [e3] at h3
    rw [e4] at h4 h7
    rw [e5, e7] at h7
    rw [feed_append, feed_cons, feed_nil, step_crc crc8 _ c h2]
    simp only [h1, h3, h4, h7, List.nil_append, List.append_nil, List.cons_append]
    refine ⟨?_, trivial, h6⟩
    rw [drop_two_take _ _ t payload.length payload h7]

/-- One frame-shaped byte sequence fed to a parser waiting for the first
header byte. -/
theorem feed_frame (crc8 : List Nat → Nat) (p : Parser) (t c : Nat) (payload : List Nat)
    (hs : p.currentState = STATE_WAIT_HEADER_1)
    (hfb : p.frame_buffer.length = FRAME_BUFFER_SIZE)
    (hlen : payload.length ≤ 255) :
    (feed crc8 p ([0xAB, 0xCD, t, payload.length] ++ payload ++ [c])).2 =
        (if crc8 (t :: payload.length :: payload) % 256 = c then
          [{ type := t, payload := payload, len := payload.length : Dispatch }]
        else []) ∧
      (feed crc8 p ([0xAB, 0xCD, t, payload.length] ++ payload ++ [c])).1.currentState =
        STATE_WAIT_HEADER_1 ∧
      (feed crc8 p ([0xAB, 0xCD, t, payload.length] ++ payload ++ [c])).1.frame_buffer.length =
        FRAME_BUFFER_SIZE := by
  rw [List.append_assoc, feed_append, feed_header crc8 p t _ hs hlen]
  simp only [List.nil_append]
  exact feed_body crc8 p t c payload hfb hlen

/-- One frame-shaped byte sequence, without its first header byte, fed to a
parser waiting for the second header byte. -/
theorem feed_frame2 (crc8 : List Nat → Nat) (p : Parser) (t c : Nat) (payload : List Nat)
    (hs : p.currentState = STATE_WAIT_HEADER_2)
    (hfb : p.frame_buffer.length = FRAME_BUFFER_SIZE)
    (hlen : payload.length ≤ 255) :
    (feed crc8 p ([0xCD, t, payload.length] ++ payload ++ [c])).2 =
        (if crc8 (t :: payload.length :: payload) % 256 = c then
          [{ type := t, payload := payload, len := payload.length : Dispatch }]
        else []) ∧
      (feed crc8 p ([0xCD, t, payload.length] ++ payload ++ [c])).1.currentState =
        STATE_WAIT_HEADER_1 ∧
      (feed crc8 p ([0xCD, t, payload.length] ++ payload ++ [c])).1.frame_buffer.length =
        FRAME_BUFFER_SIZE := by
  rw [List.append_assoc, feed_append, feed_header2 crc8 p t _ hs hlen]
  simp only [List.nil_append]
  exact feed_body crc8 p t c payload hfb hlen

/-! ### The invariant of the statics -/

theorem parserInv_fresh : ParserInv Parser.fresh := by
  simp [ParserInv, Parser.fresh]

theorem parserInv_step (crc8 : List Nat → Nat) (p : Parser) (b : Nat) (hb : b < 256)
    (h : ParserInv p) : ParserInv (Protocol_ParseByte crc8 p b).1 := by
  obtain ⟨h1, h2, h3, h4⟩ := h
  cases hs : p.currentState <;> rw [hs] at h4 <;> simp only at h4
  · by_cases hc : b = 0xAB
    · subst hc
      rw [step_header1_hit crc8 p hs]
      exact ⟨h1, h2, h3, trivial⟩
    · rw [step_header1_miss crc8 p b hs hc]
      refine ⟨h1, h2, h3, ?_⟩
      rw [hs]
      trivial
  · by_cases hc : b = 0xCD
    · subst hc
      rw [step_header2_hit crc8 p hs]
      exact ⟨h1, h2, Nat.zero_le _, rfl⟩
    · by_cases hc1 : b = 0xAB
      · subst hc1
        rw [step_header2_again crc8 p hs]
        exact ⟨h1, h2, h3, trivial⟩
      · rw [step_header2_miss crc8 p b hs hc1 hc]
        exact ⟨h1, h2, h3, trivial⟩
  · rw [step_type crc8 p b hs]
    refine ⟨by simpa using h1, h2, ?_, ?_⟩
    · simp only [h4]; omega
    · simp only [h4]
  · by_cases hc : b = 0
    · subst hc
      rw [step_length_zero crc8 p hs]
      refine ⟨by simpa using h1, by simp, ?_, ?_⟩
      · simp only [h4]; decide
      · simp only [h4]
    · rw [step_length_pos crc8 p b hs hc (by omega)]
      refine ⟨by simpa using h1, by simp only; omega, ?_, ?_⟩
      · simp only [h4]; omega
      · simp only [h4]; omega
  · have hmod : (p.buffer_index + 1) % 65536 = p.buffer_index + 1 := by omega
    by_cases hc : p.buffer_index + 1 = p.paylen_length + 2
    · rw [step_payload_last crc8 p b hs (by simp only [Parser.store]; rw [hmod]; exact hc)]
      refine ⟨by simpa [Parser.store] using h1, h2, ?_, ?_⟩
      · simp only [Parser.store, hmod]; omega
      · simp only [Parser.store, hmod]; exact hc
    · rw [step_payload_more crc8 p b hs (by simp only [Parser.store]; rw [hmod]; exact hc)]
      refine ⟨by simpa [Parser.store] using h1, h2, ?_, ?_⟩
      · simp only [Parser.store, hmod]; omega
      · simp only [Parser.store, hmod, hs]; omega
  · rw [step_crc crc8 p b hs]
    exact ⟨h1, h2, h3, trivial⟩

theorem parserInv_feed (crc8 : List Nat → Nat) (bs : List Nat) :
    ∀ p : Parser, (∀ b ∈ bs, b < 256) → ParserInv p → ParserInv (feed crc8 p bs).1 := by
  induction bs with
  | nil => intro p _ h; exact h
  | cons b bs ih =>
    intro p hb h
    rw [feed_cons]
    exact ih _ (fun x hx => hb x (List.mem_cons_of_mem _ hx))
      (parserInv_step crc8 p b (hb b (List.mem_cons_self _ _)) h)

theorem parserInv_of_reachable (crc8 : List Nat → Nat) (p : Parser)
    (h : Reachable crc8 p) : ParserInv p := by
  obtain ⟨bs, hb, rfl⟩ := h
  exact parserInv_feed crc8 bs Parser.fresh hb parserInv_fresh

theorem sendFrame_eq (crc8 : List Nat → Nat) (type : Nat) (payload : List Nat)
    (hlen : payload.length ≤ 255) :
    Protocol_SendFrame crc8 type payload payload.length =
      [0xAB, 0xCD, type, payload.length] ++ payload ++
        [crc8 (type :: payload.length :: payload) % 256] := by
  have h : ¬ payload.length > MAX_PAYLOAD_SIZE := by simp [MAX_PAYLOAD_SIZE]; omega
  unfold Protocol_SendFrame
  rw [if_neg h, payloadBytes_length]
  have ht : (type :: payload.length :: payload).take (2 + payload.length) =
      type :: payload.length :: payload := by
    apply List.take_of_length_le
    simp; omega
  simp only [ht, FRAME_HEADER_1, FRAME_HEADER_2]

/-! ## Lemmas: checksum -/

set_option maxRecDepth 100000 in
theorem crc8_maxim_bit_lt : ∀ x < 256, crc8_maxim_bit x < 256 := by decide

set_option maxRecDepth 100000 in
theorem crc8_maxim_unbit_bit : ∀ x < 256, crc8_maxim_unbit (crc8_maxim_bit x) = x := by
  decide

theorem crc8_maxim_bit_iterate_lt (n : Nat) : ∀ x < 256, crc8_maxim_bit^[n] x < 256 := by
  induction n with
  | zero => intro x hx; exact hx
  | succ n ih =>
    intro x hx
    rw [Function.iterate_succ_apply]
    exact ih _ (crc8_maxim_bit_lt x hx)

theorem crc8_maxim_bit_iterate_inj (n : Nat) :
    ∀ x < 256, ∀ y < 256, crc8_maxim_bit^[n] x = crc8_maxim_bit^[n] y → x = y := by
  induction n with
  | zero => intro x _ y _ h; exact h
  | succ n ih =>
    intro x hx y hy h
    rw [Function.iterate_succ_apply, Function.iterate_succ_apply] at h
    have h2 := ih _ (crc8_maxim_bit_lt x hx) _ (crc8_maxim_bit_lt y hy) h
    rw [← crc8_maxim_unbit_bit x hx, ← crc8_maxim_unbit_bit y hy, h2]

theorem xor_byte_lt (a b : Nat) (ha : a < 256) (hb : b < 256) : a ^^^ b < 256 :=
  Nat.xor_lt_two_pow (n := 8) ha hb

theorem crc8_maxim_byte_lt (s b : Nat) (hs : s < 256) (hb : b < 256) :
    crc8_maxim_byte s b < 256 :=
  crc8_maxim_bit_iterate_lt 8 _ (xor_byte_lt s b hs hb)

theorem crc8_maxim_byte_inj_state (s1 s2 b : Nat) (h1 : s1 < 256) (h2 : s2 < 256)
    (hb : b < 256) (h : crc8_maxim_byte s1 b = crc8_maxim_byte s2 b) : s1 = s2 :=
  Nat.xor_left_injective
    (crc8_maxim_bit_iterate_inj 8 _ (xor_byte_lt s1 b h1 hb) _ (xor_byte_lt s2 b h2 hb) h)

theorem crc8_maxim_byte_inj_byte (s b1 b2 : Nat) (hs : s < 256) (h1 : b1 < 256)
    (h2 : b2 < 256) (h : crc8_maxim_byte s b1 = crc8_maxim_byte s b2) : b1 = b2 :=
  Nat.xor_right_injective
    (crc8_maxim_bit_iterate_inj 8 _ (xor_byte_lt s b1 hs h1) _ (xor_byte_lt s b2 hs h2) h)

theorem crc_foldl_lt (xs : List Nat) :
    ∀ s < 256, (∀ x ∈ xs, x < 256) → xs.foldl crc8_maxim_byte s < 256 := by
  induction xs with
  | nil => intro s hs _; exact hs
  | cons x xs ih =>
    intro s hs hx
    rw [List.foldl_cons]
    exact ih _ (crc8_maxim_byte_lt s x hs (hx x (List.mem_cons_self _ _)))
      (fun y hy => hx y (List.mem_cons_of_mem _ hy))

theorem crc_foldl_inj_state (xs : List Nat) :
    ∀ s1 < 256, ∀ s2 < 256, (∀ x ∈ xs, x < 256) → s1 ≠ s2 →
      xs.foldl crc8_maxim_byte s1 ≠ xs.foldl crc8_maxim_byte s2 := by
  induction xs with
  | nil => intro s1 _ s2 _ _ h; exact h
  | cons x xs ih =>
    intro s1 h1 s2 h2 hx hne
    have hxb := hx x (List.mem_cons_self _ _)
    rw [List.foldl_cons, List.foldl_cons]
    exact ih _ (crc8_maxim_byte_lt s1 x h1 hxb) _ (crc8_maxim_byte_lt s2 x h2 hxb)
      (fun y hy => hx y (List.mem_cons_of_mem _ hy))
      (fun h => hne (crc8_maxim_byte_inj_state s1 s2 x h1 h2 hxb h))

/-- Replacing one byte of the input by a different byte changes the checksum. -/
theorem crc_foldl_set (xs : List Nat) :
    ∀ (j v s : Nat), s < 256 → (∀ x ∈ xs, x < 256) → v < 256 → j < xs.length →
      v ≠ xs.getD j 0 →
      (xs.set j v).foldl crc8_maxim_byte s ≠ xs.foldl crc8_maxim_byte s := by
  induction xs with
  | nil => intro j v s _ _ _ hj; simp at hj
  | cons x xs ih =>
    intro j v s hs hx hv hj hne
    have hxb := hx x (List.mem_cons_self _ _)
    have hxs : ∀ y ∈ xs, y < 256 := fun y hy => hx y (List.mem_cons_of_mem _ hy)
    cases j with
    | zero =>
      simp only [List.set_cons_zero, List.foldl_cons]
      simp only [List.getD_cons_zero] at hne
      exact crc_foldl_inj_state xs _ (crc8_maxim_byte_lt s v hs hv) _
        (crc8_maxim_byte_lt s x hs hxb) hxs
        (fun h => hne (crc8_maxim_byte_inj_byte s v x hs hv hxb h))
    | succ j =>
      simp only [List.set_cons_succ, List.foldl_cons]
      simp only [List.getD_cons_succ] at hne
      simp only [List.length_cons, Nat.add_lt_add_iff_right] at hj
      exact ih j v _ (crc8_maxim_byte_lt s x hs hxb) hxs hv hj hne

theorem crc8_maxim_lt (xs : List Nat) (hx : ∀ x ∈ xs, x < 256) : crc8_maxim xs < 256 :=
  crc_foldl_lt xs 0 (by decide) hx

theorem xor_pow_ne (x k : Nat) : x ^^^ 2 ^ k ≠ x := by
  intro h
  have h2 : x ^^^ 2 ^ k = x ^^^ 0 := by rw [h, Nat.xor_zero]
  have h3 := Nat.xor_right_injective h2
  exact absurd h3 (Nat.pos_iff_ne_zero.mp (Nat.two_pow_pos k))

theorem xor_pow_lt (x k : Nat) (hx : x < 256) (hk : k < 8) : x ^^^ 2 ^ k < 256 :=
  xor_byte_lt x (2 ^ k) hx
    (by have := Nat.pow_lt_pow_right (a := 2) (by decide) hk; simpa using this)

theorem flipBit_cons_zero (a : Nat) (l : List Nat) (k : Nat) :
    flipBit (a :: l) 0 k = (a ^^^ 2 ^ k) :: l := rfl

theorem flipBit_cons_succ (a : Nat) (l : List Nat) (i k : Nat) :
    flipBit (a :: l) (i + 1) k = a :: flipBit l i k := rfl

theorem flipBit_append_left (l1 l2 : List Nat) (i k : Nat) (h : i < l1.length) :
    flipBit (l1 ++ l2) i k = flipBit l1 i k ++ l2 := by
  unfold flipBit
  rw [List.set_append_left _ _ h, List.getD_append _ _ _ _ h]

theorem flipBit_append_right (l1 l2 : List Nat) (i k : Nat) (h : l1.length ≤ i) :
    flipBit (l1 ++ l2) i k = l1 ++ flipBit l2 (i - l1.length) k := by
  unfold flipBit
  rw [List.set_append_right _ _ h, List.getD_append_right _ _ _ _ h]

theorem flipBit_length (l : List Nat) (i k : Nat) : (flipBit l i k).length = l.length := by
  simp [flipBit]

theorem flipBit_lt (l : List Nat) (i k : Nat) (hk : k < 8) (hl : ∀ x ∈ l, x < 256) :
    ∀ x ∈ flipBit l i k, x < 256 := by
  intro x hx
  unfold flipBit at hx
  rcases List.mem_or_eq_of_mem_set hx with h | h
  · exact hl x h
  · rw [h]
    by_cases hi : i < l.length
    · rw [List.getD_eq_getElem _ _ hi]
      exact xor_pow_lt _ k (hl _ (List.getElem_mem _)) hk
    · rw [List.getD_eq_default _ _ (by omega)]
      exact xor_pow_lt 0 k (by decide) hk

/-- Payload bytes fed to a parser that expects at least as many: no call. -/
theorem feed_payload_short (crc8 : List Nat → Nat) (rest : List Nat) :
    ∀ p : Parser, p.currentState = STATE_READ_PAYLOAD → p.paylen_length ≤ 255 →
      p.buffer_index + rest.length ≤ p.paylen_length + 2 →
      (feed crc8 p rest).2 = [] := by
  induction rest with
  | nil => intro p _ _ _; rfl
  | cons b rs ih =>
    intro p hs hL hidx
    simp only [List.length_cons] at hidx
    have hmod : (p.buffer_index + 1) % 65536 = p.buffer_index + 1 := by omega
    by_cases hc : p.buffer_index + 1 = p.paylen_length + 2
    · have hrs : rs = [] := List.eq_nil_of_length_eq_zero (by omega)
      subst hrs
      rw [feed_cons, step_payload_last crc8 p b hs
        (by simp only [Parser.store]; rw [hmod]; exact hc), feed_nil]
      rfl
    · rw [feed_cons, step_payload_more crc8 p b hs
        (by simp only [Parser.store]; rw [hmod]; exact hc)]
      rw [ih (p.store b) (by simp [Parser.store, hs]) (by simpa [Parser.store] using hL)
        (by simp only [Parser.store, hmod]; omega)]
      rfl

theorem crc_changed (xs : List Nat) (j v : Nat) (hx : ∀ x ∈ xs, x < 256) (hv : v < 256)
    (hj : j < xs.length) (hne : v ≠ xs.getD j 0) :
    crc8_maxim (xs.set j v) % 256 ≠ crc8_maxim xs % 256 := by
  have hset : ∀ x ∈ xs.set j v, x < 256 := by
    intro x hmem
    rcases List.mem_or_eq_of_mem_set hmem with h | h
    · exact hx x h
    · rw [h]; exact hv
  rw [Nat.mod_eq_of_lt (crc8_maxim_lt _ hset), Nat.mod_eq_of_lt (crc8_maxim_lt _ hx)]
  exact crc_foldl_set xs j v 0 (by decide) hx hv hj hne

/-- A frame whose type byte has one bit inverted. -/
theorem feed_flipped_type (type : Nat) (payload : List Nat) (k : Nat) (p : Parser)
    (hs : p.currentState = STATE_WAIT_HEADER_1)
    (hfb : p.frame_buffer.length = FRAME_BUFFER_SIZE)
    (htype : type < 256) (hbytes : ∀ b ∈ payload, b < 256)
    (hlen : payload.length ≤ 255) (hk : k < 8) :
    (feed crc8_maxim p ([0xAB, 0xCD, type ^^^ 2 ^ k, payload.length] ++ payload ++
      [crc8_maxim (type :: payload.length :: payload) % 256])).2 = [] := by
  have hall : ∀ x ∈ type :: payload.length :: payload, x < 256 := by
    intro x hx
    rcases List.mem_cons.mp hx with h | h
    · rw [h]; exact htype
    · rcases List.mem_cons.mp h with h | h
      · rw [h]; omega
      · exact hbytes x h
  rw [(feed_frame crc8_maxim p (type ^^^ 2 ^ k) _ payload hs hfb hlen).1]
  have hne := crc_changed (type :: payload.length :: payload) 0 (type ^^^ 2 ^ k) hall
    (xor_pow_lt type k htype hk) (by simp) (by simpa using xor_pow_ne type k)
  exact if_neg hne

/-- A frame one of whose payload bytes has one bit inverted. -/
theorem feed_flipped_payload (type : Nat) (payload : List Nat) (j k : Nat) (p : Parser)
    (hs : p.currentState = STATE_WAIT_HEADER_1)
    (hfb : p.frame_buffer.length = FRAME_BUFFER_SIZE)
    (htype : type < 256) (hbytes : ∀ b ∈ payload, b < 256)
    (hlen : payload.length ≤ 255) (hk : k < 8) (hj : j < payload.length) :
    (feed crc8_maxim p ([0xAB, 0xCD, type, payload.length] ++ flipBit payload j k ++
      [crc8_maxim (type :: payload.length :: payload) % 256])).2 = [] := by
  have hall : ∀ x ∈ type :: payload.length :: payload, x < 256 := by
    intro x hx
    rcases List.mem_cons.mp hx with h | h
    · rw [h]; exact htype
    · rcases List.mem_cons.mp h with h | h
      · rw [h]; omega
      · exact hbytes x h
  have key := (feed_frame crc8_maxim p type
    (crc8_maxim (type :: payload.length :: payload) % 256) (flipBit payload j k) hs hfb
    (by rw [flipBit_length]; exact hlen)).1
  rw [flipBit_length] at key
  rw [key]
  have hv : payload.getD j 0 ^^^ 2 ^ k < 256 := by
    rw [List.getD_eq_getElem _ _ hj]
    exact xor_pow_lt _ k (hbytes _ (List.getElem_mem _)) hk
  have hne := crc_changed (type :: payload.length :: payload) (j + 2)
    (payload.getD j 0 ^^^ 2 ^ k) hall hv (by simp; omega)
    (by simpa using xor_pow_ne (payload.getD j 0) k)
  exact if_neg hne

/-- A frame whose checksum byte has one bit inverted. -/
theorem feed_flipped_crc (crc8 : List Nat → Nat) (type : Nat) (payload : List Nat) (k : Nat)
    (p : Parser) (hs : p.currentState = STATE_WAIT_HEADER_1)
    (hfb : p.frame_buffer.length = FRAME_BUFFER_SIZE) (hlen : payload.length ≤ 255) :
    (feed crc8 p ([0xAB, 0xCD, type, payload.length] ++ payload ++
      [(crc8 (type :: payload.length :: payload) % 256) ^^^ 2 ^ k])).2 = [] := by
  rw [(feed_frame crc8 p type _ payload hs hfb hlen).1]
  exact if_neg (fun h => xor_pow_ne _ k h.symm)

/-- A frame whose length byte is replaced by a larger one. -/
theorem feed_longer_length (crc8 : List Nat → Nat) (type len c : Nat) (payload : List Nat)
    (p : Parser) (hs : p.currentState = STATE_WAIT_HEADER_1)
    (hlen : len ≤ 255) (hlt : payload.length < len) :
    (feed crc8 p ([0xAB, 0xCD, type, len] ++ payload ++ [c])).2 = [] := by
  rw [List.append_assoc, feed_append, feed_header crc8 p type len hs hlen]
  simp only [List.nil_append]
  have h0 : len ≠ 0 := by omega
  exact feed_payload_short crc8 (payload ++ [c]) (afterHeader p type len)
    (by simp [afterHeader, h0]) hlen (by simp [afterHeader]; omega)

/-- Bytes other than `0xAB` leave a parser that waits for the first header
byte as it is. -/
theorem feed_no_header (crc8 : List Nat → Nat) (bs : List Nat) :
    ∀ p : Parser, p.currentState = STATE_WAIT_HEADER_1 → 0xAB ∉ bs →
      feed crc8 p bs = (p, []) := by
  induction bs with
  | nil => intro p _ _; rfl
  | cons b bs ih =>
    intro p hs hb
    have hb1 : b ≠ 0xAB := fun h => hb (by rw [h]; exact List.mem_cons_self _ _)
    have hb2 : 0xAB ∉ bs := fun h => hb (List.mem_cons_of_mem _ h)
    rw [feed_cons, step_header1_miss crc8 p b hs hb1]
    simp only [List.nil_append]
    rw [ih p hs hb2]

/-- One more byte after such bytes: still no call. -/
theorem feed_no_header_then (crc8 : List Nat → Nat) (bs : List Nat) (c : Nat) (p : Parser)
    (hs : p.currentState = STATE_WAIT_HEADER_1) (hb : 0xAB ∉ bs) :
    (feed crc8 p (bs ++ [c])).2 = [] := by
  rw [feed_append, feed_no_header crc8 bs p hs hb, feed_cons, feed_nil]
  by_cases hc : c = 0xAB
  · subst hc
    rw [step_header1_hit crc8 p hs]
    rfl
  · rw [step_header1_miss crc8 p c hs hc]
    rfl

theorem header2_flipped_ne : ∀ k < 8, 0xCD ^^^ 2 ^ k ≠ 0xAB := by decide

/-- A frame whose first header byte has one bit inverted, when no later byte
before the checksum is `0xAB`. -/
theorem feed_flipped_header1 (crc8 : List Nat → Nat) (type c k : Nat) (payload : List Nat)
    (p : Parser) (hs : p.currentState = STATE_WAIT_HEADER_1)
    (hno : 0xAB ∉ type :: payload.length :: payload) :
    (feed crc8 p ([0xAB ^^^ 2 ^ k, 0xCD, type, payload.length] ++ payload ++ [c])).2 = [] := by
  have h : 0xAB ∉ [0xAB ^^^ 2 ^ k, 0xCD, type, payload.length] ++ payload := by
    intro hm
    simp only [List.cons_append, List.nil_append, List.mem_cons] at hm hno
    rcases hm with h | h | h
    · exact xor_pow_ne 0xAB k h.symm
    · exact absurd h (by decide)
    · exact hno h
  exact feed_no_header_then crc8 _ c p hs h

/-- A frame whose second header byte has one bit inverted, when no later byte
before the checksum is `0xAB`. -/
theorem feed_flipped_header2 (crc8 : List Nat → Nat) (type c k : Nat) (payload : List Nat)
    (p : Parser) (hs : p.currentState = STATE_WAIT_HEADER_1) (hk : k < 8)
    (hno : 0xAB ∉ type :: payload.length :: payload) :
    (feed crc8 p ([0xAB, 0xCD ^^^ 2 ^ k, type, payload.length] ++ payload ++ [c])).2 = [] := by
  have e : [0xAB, 0xCD ^^^ 2 ^ k, type, payload.length] ++ payload ++ [c] =
      0xAB :: (0xCD ^^^ 2 ^ k) :: ((type :: payload.length :: payload) ++ [c]) := by simp
  rw [e, feed_cons, step_header1_hit crc8 p hs, feed_cons,
    step_header2_miss crc8 _ _ rfl (header2_flipped_ne k hk) (xor_pow_ne 0xCD k)]
  simp only [List.nil_append]
  exact feed_no_header_then crc8 _ c _ rfl hno

set_option maxRecDepth 100000 in
theorem flipped_length_frame :
    flipBit (Protocol_SendFrame crc8_maxim 0 [0] 1) 3 0 =
      [0xAB, 0xCD, 0, ([] : List Nat).length] ++ [] ++ [0] ++ [0xC4] := by decide

set_option maxRecDepth 100000 in
theorem flipped_header_frame :
    flipBit (Protocol_SendFrame crc8_maxim 2 [0xAB, 0xCD, 1, 0, 0xC4] 5) 0 0 =
      [0xAA, 0xCD, 2, 5] ++ ([0xAB, 0xCD, 1, ([] : List Nat).length] ++ [] ++ [0xC4] ++
        [0x76]) := by decide

/-! ## Claims -/

/-- C1: round trip. For every type and every payload of at most 255 bytes, the
bytes `Protocol_SendFrame` emits, fed one at a time to `Protocol_ParseByte`
from the initial parser, cause exactly one call of `ProcessValidFrame`, with
the original type, the original payload bytes and `len` equal to the payload
length; sender and parser use the same `crc8`. -/
theorem C1_round_trip (crc8 : List Nat → Nat) (type : Nat) (payload : List Nat)
    (hlen : payload.length ≤ 255) :
    (feed crc8 Parser.fresh (Protocol_SendFrame crc8 type payload payload.length)).2 =
      [{ type := type, payload := payload, len := payload.length : Dispatch }] := by
  rw [sendFrame_eq crc8 type payload hlen]
  have h := (feed_frame crc8 Parser.fresh type
    (crc8 (type :: payload.length :: payload) % 256) payload rfl
    (by simp [Parser.fresh]) hlen).1
  rw [h, if_pos rfl]

theorem C1_round_trip_witness :
    [1, 2, 3].length ≤ 255 ∧
    (feed (fun xs => xs.sum) Parser.fresh
      (Protocol_SendFrame (fun xs => xs.sum) 7 [1, 2, 3] [1, 2, 3].length)).2 =
      [{ type := 7, payload := [1, 2, 3], len := [1, 2, 3].length : Dispatch }] :=
  ⟨by decide, C1_round_trip (fun xs => xs.sum) 7 [1, 2, 3] (by decide)⟩

/-- C2: encoder output. For every type and every payload of length `L` at most
255, `Protocol_SendFrame` passes to the byte sink exactly `L + 5` bytes:
`0xAB`, `0xCD`, the type, `L`, the payload bytes in order, and the checksum
of the `L + 2` bytes `type, L, payload` (narrowed to a byte); the two header
bytes are not part of the checksum input. -/
theorem C2_encoder_output (crc8 : List Nat → Nat) (type : Nat) (payload : List Nat)
    (hlen : payload.length ≤ 255) :
    Protocol_SendFrame crc8 type payload payload.length =
        [0xAB, 0xCD, type, payload.length] ++ payload ++
          [crc8 (type :: payload.length :: payload) % 256] ∧
      (Protocol_SendFrame crc8 type payload payload.length).length = payload.length + 5 ∧
      (type :: payload.length :: payload).length = payload.length + 2 := by
  refine ⟨sendFrame_eq crc8 type payload hlen, ?_, by simp⟩
  rw [sendFrame_eq crc8 type payload hlen]
  simp

theorem C2_encoder_output_witness :
    [9, 8].length ≤ 255 ∧
    Protocol_SendFrame (fun xs => xs.sum) 1 [9, 8] [9, 8].length =
        [0xAB, 0xCD, 1, [9, 8].length] ++ [9, 8] ++
          [(fun xs => xs.sum) (1 :: [9, 8].length :: [9, 8]) % 256] ∧
      (Protocol_SendFrame (fun xs => xs.sum) 1 [9, 8] [9, 8].length).length = [9, 8].length + 5 ∧
      (1 :: [9, 8].length :: [9, 8]).length = [9, 8].length + 2 :=
  ⟨by decide, C2_encoder_output (fun xs => xs.sum) 1 [9, 8] (by decide)⟩

/-- C3 (counterexample): with capacity 3 and three bytes to write, the third
`RingBuffer_Write` makes `tail` meet `head` and enters its endless loop, so
the run of writes never completes and no read follows. -/
theorem C3_fifo_counterexample :
    1 ≤ 3 ∧ [0, 0, 0].length = 3 ∧ [1, 2, 3].length ≤ 3 ∧
    writeAll (RingBuffer_Init [0, 0, 0] 3) [1, 2, 3] = none ∧
    ¬ ∃ rb, writeAll (RingBuffer_Init [0, 0, 0] 3) [1, 2, 3] =
          some (List.replicate [1, 2, 3].length true, rb) ∧
        (readN rb 0 [1, 2, 3].length).1 = [1, 2, 3].map (fun b => (true, b)) := by
  have h : writeAll (RingBuffer_Init [0, 0, 0] 3) [1, 2, 3] = none := by decide
  refine ⟨by decide, by decide, by decide, h, ?_⟩
  rintro ⟨rb, h1, _⟩
  rw [h] at h1
  cases h1

/-- C3 (amended): FIFO property below capacity. For every capacity `C` and
every byte sequence `bs` with fewer than `C` bytes, after `RingBuffer_Init`
with size `C` (on an array of `C` bytes), every `RingBuffer_Write` of the
bytes of `bs` in order returns true, and the following `bs.length` calls of
`RingBuffer_Read` all return true and output exactly `bs` in write order. -/
theorem C3_fifo_below_capacity (C : Nat) (buffer bs : List Nat) (byte0 : Nat)
    (hbuf : buffer.length = C) (hn : bs.length < C) :
    ∃ rb, writeAll (RingBuffer_Init buffer C) bs =
          some (List.replicate bs.length true, rb) ∧
        (readN rb byte0 bs.length).1 = bs.map (fun b => (true, b)) := by
  obtain ⟨buf, h1, h2, h3⟩ := writeAll_from_zero bs (RingBuffer_Init buffer C) rfl rfl hbuf
    (by simp only [RingBuffer_Init]; omega)
  refine ⟨_, h1, ?_⟩
  simp only [RingBuffer_Init, Nat.zero_add, List.take_zero, List.nil_append] at h2 h3 ⊢
  rw [(readN_below_tail bs.length _ byte0 rfl (by simp) hn h2).1]
  simp [h3]

theorem C3_fifo_below_capacity_witness :
    [0, 0, 0].length = 3 ∧ [1, 2].length < 3 ∧
    ∃ rb, writeAll (RingBuffer_Init [0, 0, 0] 3) [1, 2] =
          some (List.replicate [1, 2].length true, rb) ∧
        (readN rb 9 [1, 2].length).1 = [1, 2].map (fun b => (true, b)) :=
  ⟨by decide, by decide, C3_fifo_below_capacity 3 [0, 0, 0] [1, 2] 9 (by decide) (by decide)⟩

/-- C4 (counterexample): with capacity 2 the second `RingBuffer_Write` does
not return true: it enters its endless loop, so there is no third call. -/
theorem C4_full_capacity_counterexample :
    writeAll (RingBuffer_Init [0, 0] 2) [5, 6] = none ∧
    RingBuffer_Write { buffer := [5, 0], size := 2, head := 0, tail := 1, is_full := false } 6 =
      WriteOutcome.spins
        { buffer := [5, 6], size := 2, head := 0, tail := 0, is_full := true } ∧
    ¬ ∃ rb, writeAll (RingBuffer_Init [0, 0] 2) [5, 6] = some ([true, true], rb) ∧
        RingBuffer_Write rb 7 = WriteOutcome.returned false rb := by
  have h : writeAll (RingBuffer_Init [0, 0] 2) [5, 6] = none := by decide
  refine ⟨h, by decide, ?_⟩
  rintro ⟨rb, h1, _⟩
  rw [h] at h1
  cases h1

/-- C4 (amended): for every capacity `C ≥ 1`, starting from `RingBuffer_Init`
with size `C`, the first `C - 1` calls of `RingBuffer_Write` each return true
(the buffer then holds these `C - 1` bytes, with `is_full` false), and the
`C`-th call does not return: it stores its byte, moves `tail` onto `head`,
sets `is_full` and enters the endless loop. A `RingBuffer_Write` on the struct
as that call left it returns false and leaves it unchanged. -/
theorem C4_full_capacity (C : Nat) (buffer bs : List Nat) (b b2 : Nat)
    (hbuf : buffer.length = C) (hn : bs.length + 1 = C) :
    ∃ rb, writeAll (RingBuffer_Init buffer C) bs =
          some (List.replicate bs.length true, rb) ∧
        rb.is_full = false ∧ rb.head = 0 ∧ rb.tail = bs.length ∧ rb.size = C ∧
        rb.buffer.take bs.length = bs ∧
        RingBuffer_Write rb b =
          WriteOutcome.spins
            { rb with buffer := rb.buffer.set rb.tail b, tail := 0, is_full := true } ∧
        RingBuffer_Write
            { rb with buffer := rb.buffer.set rb.tail b, tail := 0, is_full := true } b2 =
          WriteOutcome.returned false
            { rb with buffer := rb.buffer.set rb.tail b, tail := 0, is_full := true } := by
  obtain ⟨buf, h1, _, h3⟩ := writeAll_from_zero bs (RingBuffer_Init buffer C) rfl rfl hbuf
    (by simp only [RingBuffer_Init]; omega)
  simp only [RingBuffer_Init, Nat.zero_add, List.take_zero, List.nil_append] at h1 h3
  refine ⟨_, h1, rfl, rfl, rfl, rfl, h3, ?_, ?_⟩
  · have hm : (bs.length + 1) % C = 0 := by rw [hn]; exact Nat.mod_self C
    rw [write_meets_head _ b rfl (by simp only [hm])]
    simp only [hm]
  · simp [RingBuffer_Write]

theorem C4_full_capacity_witness :
    [0, 0, 0].length = 3 ∧ [1, 2].length + 1 = 3 ∧
    ∃ rb, writeAll (RingBuffer_Init [0, 0, 0] 3) [1, 2] =
          some (List.replicate [1, 2].length true, rb) ∧
        rb.is_full = false ∧ rb.head = 0 ∧ rb.tail = [1, 2].length ∧ rb.size = 3 ∧
        rb.buffer.take [1, 2].length = [1, 2] ∧
        RingBuffer_Write rb 3 =
          WriteOutcome.spins
            { rb with buffer := rb.buffer.set rb.tail 3, tail := 0, is_full := true } ∧
        RingBuffer_Write
            { rb with buffer := rb.buffer.set rb.tail 3, tail := 0, is_full := true } 4 =
          WriteOutcome.returned false
            { rb with buffer := rb.buffer.set rb.tail 3, tail := 0, is_full := true } :=
  ⟨by decide, by decide, C4_full_capacity 3 [0, 0, 0] [1, 2] 3 4 (by decide) (by decide)⟩

/-- C6: a write on a full buffer is rejected atomically. For every buffer state
with `is_full` set and every byte, `RingBuffer_Write` returns false and the
resulting struct (head, tail, is_full, size and every stored byte) is the one
before the call. -/
theorem C6_write_full_rejected (rb : RingBuffer) (byte : Nat) (hfull : rb.is_full = true) :
    RingBuffer_Write rb byte = WriteOutcome.returned false rb := by
  simp [RingBuffer_Write, hfull]

theorem C6_write_full_rejected_witness :
    ({ buffer := [4, 5, 6], size := 3, head := 1, tail := 1, is_full := true } :
        RingBuffer).is_full = true ∧
    RingBuffer_Write { buffer := [4, 5, 6], size := 3, head := 1, tail := 1, is_full := true } 9 =
      WriteOutcome.returned false
        { buffer := [4, 5, 6], size := 3, head := 1, tail := 1, is_full := true } :=
  ⟨rfl, C6_write_full_rejected _ 9 rfl⟩

/-- C7: read contract. For every buffer state with `head < size` (so
`size ≥ 1`) whose array has `size` bytes: `RingBuffer_IsEmpty` holds exactly
when `is_full` is false and `head = tail`; `RingBuffer_Read` returns false
exactly in that case, and then changes neither the struct nor `*byte`;
otherwise it returns true, outputs the byte stored at index `head`, sets
`head` to `(head + 1) % size` and `is_full` to false, and leaves `tail`,
`size` and the stored bytes unchanged. -/
theorem C7_read_contract (rb : RingBuffer) (byte0 : Nat)
    (hhead : rb.head < rb.size) (hbuf : rb.buffer.length = rb.size) :
    (RingBuffer_IsEmpty rb = true ↔ (rb.is_full = false ∧ rb.head = rb.tail)) ∧
      ((RingBuffer_Read rb byte0).1 = false ↔ RingBuffer_IsEmpty rb = true) ∧
      (RingBuffer_IsEmpty rb = true → RingBuffer_Read rb byte0 = (false, byte0, rb)) ∧
      (RingBuffer_IsEmpty rb = false →
        RingBuffer_Read rb byte0 =
          (true, rb.buffer.get ⟨rb.head, by omega⟩,
            { rb with head := (rb.head + 1) % rb.size, is_full := false })) := by
  have hlt : rb.head < rb.buffer.length := by omega
  refine ⟨by simp [RingBuffer_IsEmpty], ?_, ?_, ?_⟩
  · by_cases he : RingBuffer_IsEmpty rb = true
    · simp [RingBuffer_Read, he]
    · simp [RingBuffer_Read, he]
  · intro he
    simp [RingBuffer_Read, he]
  · intro he
    simp [RingBuffer_Read, he, List.getD_eq_getElem?_getD, List.getElem?_eq_getElem hlt]

theorem C7_read_contract_witness :
    (1 : Nat) < 3 ∧ [4, 5, 6].length = 3 ∧
      RingBuffer_Read { buffer := [4, 5, 6], size := 3, head := 1, tail := 0, is_full := false } 0 =
        (true, 5, { buffer := [4, 5, 6], size := 3, head := 2, tail := 0, is_full := false }) :=
  ⟨by decide, by decide,
    (C7_read_contract { buffer := [4, 5, 6], size := 3, head := 1, tail := 0, is_full := false }
      0 (by decide) (by decide)).2.2.2 (by decide)⟩

/-- C8 (counterexample): single-bit corruptions that still cause a call. For
type 0 and payload `[0x00]`, clearing bit 0 of the length byte (index 3) turns
the frame into a frame of length 0 whose checksum position holds the payload
byte `0x00 = crc8_maxim [0, 0]`: one call, with `len` 0. For type 2 and a
payload that itself contains a frame, inverting bit 0 of the first header byte
(index 0) lets the parser find the inner frame: one call, with type 1. -/
theorem C8_corruption_counterexample :
    (feed crc8_maxim Parser.fresh
        (flipBit (Protocol_SendFrame crc8_maxim 0 [0] 1) 3 0)).2 =
      [{ type := 0, payload := [], len := 0 : Dispatch }] ∧
    (feed crc8_maxim Parser.fresh
        (flipBit (Protocol_SendFrame crc8_maxim 2 [0xAB, 0xCD, 1, 0, 0xC4] 5) 0 0)).2 =
      [{ type := 1, payload := [], len := 0 : Dispatch }] := by
  constructor
  · rw [flipped_length_frame, feed_append,
      (feed_frame crc8_maxim Parser.fresh 0 0 [] rfl (by simp [Parser.fresh]) (by simp)).1]
    have h2 := (feed_frame crc8_maxim Parser.fresh 0 0 [] rfl (by simp [Parser.fresh])
      (by simp)).2.1
    rw [feed_cons, step_header1_miss crc8_maxim _ 0xC4 h2 (by decide), feed_nil]
    decide
  · have h2 : feed crc8_maxim Parser.fresh [0xAA, 0xCD, 2, 5] = (Parser.fresh, []) := by
      rw [feed_cons, step_header1_miss crc8_maxim _ 0xAA rfl (by decide),
        feed_cons, step_header1_miss crc8_maxim _ 0xCD rfl (by decide),
        feed_cons, step_header1_miss crc8_maxim _ 2 rfl (by decide),
        feed_cons, step_header1_miss crc8_maxim _ 5 rfl (by decide), feed_nil]
      rfl
    rw [flipped_header_frame, feed_append, h2, feed_append,
      (feed_frame crc8_maxim Parser.fresh 1 0xC4 [] rfl (by simp [Parser.fresh]) (by simp)).1]
    have h3 := (feed_frame crc8_maxim Parser.fresh 1 0xC4 [] rfl (by simp [Parser.fresh])
      (by simp)).2.1
    rw [feed_cons, step_header1_miss crc8_maxim _ 0x76 h3 (by decide), feed_nil]
    decide

/-- C8 (amended): corruption without shortening. For every type byte, every
payload of `L ≤ 255` bytes and every bit position in the type byte (index 2),
in a payload byte (index 4 up to `3 + L`), in the checksum byte (index
`4 + L`), in the length byte (index 3) at a bit that is 0 in `L`, so that the
declared length grows, or in a header byte (index 0 or 1) when none of the
type, length and payload bytes is `0xAB`: feeding the frame emitted by
`Protocol_SendFrame`, with that single bit inverted, to the initial parser,
with `crc8` being CRC-8/MAXIM, causes no call of `ProcessValidFrame`. -/
theorem C8_corruption (type : Nat) (payload : List Nat) (i k : Nat)
    (htype : type < 256) (hbytes : ∀ b ∈ payload, b < 256)
    (hlen : payload.length ≤ 255) (hk : k < 8)
    (hpos : (i ≤ 1 ∧ 0xAB ∉ type :: payload.length :: payload) ∨ i = 2 ∨
      (i = 3 ∧ payload.length < payload.length ^^^ 2 ^ k) ∨
      (4 ≤ i ∧ i ≤ 4 + payload.length)) :
    (feed crc8_maxim Parser.fresh
      (flipBit (Protocol_SendFrame crc8_maxim type payload payload.length) i k)).2 = [] := by
  have hfb : Parser.fresh.frame_buffer.length = FRAME_BUFFER_SIZE := by simp [Parser.fresh]
  rw [sendFrame_eq crc8_maxim type payload hlen]
  rcases hpos with ⟨h1, hno⟩ | h | ⟨h, hgrow⟩ | ⟨h4, hle⟩
  · rw [flipBit_append_left _ _ _ _ (by simp; omega),
      flipBit_append_left _ _ _ _ (by simp; omega)]
    rcases Nat.le_one_iff_eq_zero_or_eq_one.mp h1 with h | h
    · subst h
      exact feed_flipped_header1 crc8_maxim type _ k payload Parser.fresh rfl hno
    · subst h
      exact feed_flipped_header2 crc8_maxim type _ k payload Parser.fresh rfl hk hno
  · subst h
    rw [flipBit_append_left _ _ _ _ (by simp), flipBit_append_left _ _ _ _ (by simp)]
    exact feed_flipped_type type payload k Parser.fresh rfl hfb htype hbytes hlen hk
  · subst h
    rw [flipBit_append_left _ _ _ _ (by simp), flipBit_append_left _ _ _ _ (by simp)]
    exact feed_longer_length crc8_maxim type (payload.length ^^^ 2 ^ k) _ payload
      Parser.fresh rfl
      (by have := xor_pow_lt payload.length k (by omega) hk; omega) hgrow
  · by_cases hj : i < 4 + payload.length
    · rw [flipBit_append_left _ _ _ _ (by simp; omega),
        flipBit_append_right _ _ _ _ (by simpa using h4)]
      exact feed_flipped_payload type payload (i - 4) k Parser.fresh rfl hfb htype hbytes
        hlen hk (by omega)
    · have hi : i = 4 + payload.length := by omega
      subst hi
      rw [flipBit_append_right _ _ _ _ (by simp; omega)]
      have h0 : 4 + payload.length - ([171, 205, type, payload.length] ++ payload).length = 0 := by
        simp; omega
      rw [h0, flipBit_cons_zero]
      exact feed_flipped_crc crc8_maxim type payload k Parser.fresh rfl hfb hlen

theorem C8_corruption_witness :
    (1 : Nat) < 256 ∧ (∀ b ∈ [10, 20, 30], b < 256) ∧ [10, 20, 30].length ≤ 255 ∧
      (7 : Nat) < 8 ∧ (4 ≤ 5 ∧ 5 ≤ 4 + [10, 20, 30].length) ∧
      (feed crc8_maxim Parser.fresh
        (flipBit (Protocol_SendFrame crc8_maxim 1 [10, 20, 30] [10, 20, 30].length) 5 7)).2 =
        [] :=
  ⟨by decide, by decide, by decide, by decide, by decide,
    C8_corruption 1 [10, 20, 30] 5 7 (by decide) (by decide) (by decide) (by decide)
      (Or.inr (Or.inr (Or.inr ⟨by decide, by decide⟩)))⟩

/-- C9: resync. For every type byte `T`, feeding the six bytes `0xAB, 0xAB,
0xCD, T, 0x00, crc8([T, 0x00])` to the initial parser causes exactly one call
of `ProcessValidFrame`, with type `T` and `len` 0 (and no payload bytes), and
leaves the parser in `STATE_WAIT_HEADER_1`; a `0xAB` received in
`STATE_WAIT_HEADER_2` makes no call and leaves the statics as they are, so the
parser stays in `STATE_WAIT_HEADER_2`. -/
theorem C9_resync (crc8 : List Nat → Nat) (T : Nat) (p : Parser)
    (hp : p.currentState = STATE_WAIT_HEADER_2) :
    (feed crc8 Parser.fresh [0xAB, 0xAB, 0xCD, T, 0x00, crc8 [T, 0x00] % 256]).2 =
        [{ type := T, payload := [], len := 0 : Dispatch }] ∧
      (feed crc8 Parser.fresh
        [0xAB, 0xAB, 0xCD, T, 0x00, crc8 [T, 0x00] % 256]).1.currentState =
        STATE_WAIT_HEADER_1 ∧
      Protocol_ParseByte crc8 p 0xAB = (p, []) ∧
      (Protocol_ParseByte crc8 p 0xAB).1.currentState = STATE_WAIT_HEADER_2 := by
  have hstay : Protocol_ParseByte crc8 p 0xAB = (p, []) := by
    rw [step_header2_again crc8 p hp, ← hp]
  have key := feed_frame2 crc8 { Parser.fresh with currentState := STATE_WAIT_HEADER_2 } T
    (crc8 [T, 0x00] % 256) [] rfl (by simp [Parser.fresh]) (by simp)
  simp only [List.length_nil, List.append_nil, List.cons_append, List.nil_append,
    if_true] at key
  have hfeed : feed crc8 Parser.fresh [0xAB, 0xAB, 0xCD, T, 0x00, crc8 [T, 0x00] % 256] =
      feed crc8 { Parser.fresh with currentState := STATE_WAIT_HEADER_2 }
        [0xCD, T, 0, crc8 [T, 0x00] % 256] := by
    rw [feed_cons, step_header1_hit crc8 Parser.fresh rfl, feed_cons,
      step_header2_again crc8 _ rfl]
    rfl
  rw [hfeed]
  refine ⟨key.1, key.2.1, hstay, ?_⟩
  rw [hstay]
  exact hp

theorem C9_resync_witness :
    ({ Parser.fresh with currentState := STATE_WAIT_HEADER_2 } : Parser).currentState =
        STATE_WAIT_HEADER_2 ∧
    (feed (fun xs => xs.sum) Parser.fresh
        [0xAB, 0xAB, 0xCD, 5, 0x00, (fun xs => xs.sum) [5, 0x00] % 256]).2 =
        [{ type := 5, payload := [], len := 0 : Dispatch }] :=
  ⟨rfl, (C9_resync (fun xs => xs.sum) 5
    { Parser.fresh with currentState := STATE_WAIT_HEADER_2 } rfl).1⟩

/-- C10: checksum step. In every parser state in `STATE_READ_CRC` that is
reachable from the initial statics, `buffer_index` equals `paylen_length + 2`,
and for every byte `b` the step calls `ProcessValidFrame(received_type,
frame_buffer[2 .. 2 + paylen_length), paylen_length)` exactly when `b` equals
`crc8` of `frame_buffer[0 .. buffer_index)`, calls nothing otherwise, and in
both cases the next state is `STATE_WAIT_HEADER_1`. -/
theorem C10_checksum_step (crc8 : List Nat → Nat) (p : Parser) (b : Nat)
    (hreach : Reachable crc8 p) (hs : p.currentState = STATE_READ_CRC) :
    p.buffer_index = p.paylen_length + 2 ∧
      (Protocol_ParseByte crc8 p b).2 =
        (if b = crc8 (p.frame_buffer.take p.buffer_index) % 256 then
          [{ type := p.received_type
             payload := (p.frame_buffer.drop 2).take p.paylen_length
             len := p.paylen_length : Dispatch }]
        else []) ∧
      (Protocol_ParseByte crc8 p b).1.currentState = STATE_WAIT_HEADER_1 := by
  obtain ⟨_, _, _, h4⟩ := parserInv_of_reachable crc8 p hreach
  rw [hs] at h4
  simp only at h4
  rw [step_crc crc8 p b hs, h4]
  refine ⟨rfl, ?_, rfl⟩
  simp only [eq_comm]

theorem C10_checksum_step_witness :
    Reachable (fun xs => xs.sum)
        (feed (fun xs => xs.sum) Parser.fresh [0xAB, 0xCD, 1, 0]).1 ∧
      (feed (fun xs => xs.sum) Parser.fresh [0xAB, 0xCD, 1, 0]).1.currentState =
        STATE_READ_CRC ∧
      (feed (fun xs => xs.sum) Parser.fresh [0xAB, 0xCD, 1, 0]).1.buffer_index =
        (feed (fun xs => xs.sum) Parser.fresh [0xAB, 0xCD, 1, 0]).1.paylen_length + 2 :=
  ⟨⟨[0xAB, 0xCD, 1, 0], by decide, rfl⟩, by decide,
    (C10_checksum_step (fun xs => xs.sum)
      (feed (fun xs => xs.sum) Parser.fresh [0xAB, 0xCD, 1, 0]).1 1
      ⟨[0xAB, 0xCD, 1, 0], by decide, rfl⟩ (by decide)).1⟩

/-! ## Lemmas: sequences of frames and noise -/

theorem feed_sendAll (crc8 : List Nat → Nat) (frames : List (Nat × List Nat)) :
    ∀ p : Parser, p.currentState = STATE_WAIT_HEADER_1 →
      p.frame_buffer.length = FRAME_BUFFER_SIZE →
      (∀ f ∈ frames, f.2.length ≤ 255) →
      (feed crc8 p (sendAll crc8 frames)).2 =
          frames.map (fun f => ({ type := f.1, payload := f.2, len := f.2.length } : Dispatch)) ∧
        (feed crc8 p (sendAll crc8 frames)).1.currentState = STATE_WAIT_HEADER_1 ∧
        (feed crc8 p (sendAll crc8 frames)).1.frame_buffer.length = FRAME_BUFFER_SIZE := by
  induction frames with
  | nil => intro p hs hfb _; exact ⟨rfl, hs, hfb⟩
  | cons f fs ih =>
    intro p hs hfb hlen
    have hf : f.2.length ≤ 255 := hlen f (List.mem_cons_self _ _)
    obtain ⟨h1, h2, h3⟩ := feed_frame crc8 p f.1
      (crc8 (f.1 :: f.2.length :: f.2) % 256) f.2 hs hfb hf
    rw [if_pos rfl] at h1
    obtain ⟨k1, k2, k3⟩ := ih _ h2 h3 (fun x hx => hlen x (List.mem_cons_of_mem _ hx))
    have e : sendAll crc8 (f :: fs) =
        ([0xAB, 0xCD, f.1, f.2.length] ++ f.2 ++ [crc8 (f.1 :: f.2.length :: f.2) % 256]) ++
          sendAll crc8 fs := by
      rw [sendAll, sendFrame_eq crc8 f.1 f.2 hf]
    rw [e, feed_append crc8 _ (sendAll crc8 fs) p]
    refine ⟨?_, k2, k3⟩
    simp only [h1, k1]
    rfl

/-- Bytes other than `0xCD`, fed to a parser that waits for a header byte,
cause no call and leave it waiting for a header byte. -/
theorem feed_noise (crc8 : List Nat → Nat) (g : List Nat) :
    ∀ p : Parser,
      (p.currentState = STATE_WAIT_HEADER_1 ∨ p.currentState = STATE_WAIT_HEADER_2) →
      0xCD ∉ g →
      (feed crc8 p g).2 = [] ∧
        ((feed crc8 p g).1.currentState = STATE_WAIT_HEADER_1 ∨
          (feed crc8 p g).1.currentState = STATE_WAIT_HEADER_2) ∧
        (feed crc8 p g).1.frame_buffer = p.frame_buffer := by
  induction g with
  | nil => intro p hs _; exact ⟨rfl, hs, rfl⟩
  | cons b g ih =>
    intro p hs hg
    have hb : b ≠ 0xCD := fun h => hg (by rw [h]; exact List.mem_cons_self _ _)
    have hg2 : 0xCD ∉ g := fun h => hg (List.mem_cons_of_mem _ h)
    rw [feed_cons]
    by_cases hab : b = 0xAB
    · subst hab
      have hstep : Protocol_ParseByte crc8 p 0xAB =
          ({ p with currentState := STATE_WAIT_HEADER_2 }, []) := by
        rcases hs with hs | hs
        · exact step_header1_hit crc8 p hs
        · exact step_header2_again crc8 p hs
      rw [hstep]
      obtain ⟨h1, h2, h3⟩ := ih { p with currentState := STATE_WAIT_HEADER_2 } (Or.inr rfl) hg2
      exact ⟨by rw [h1]; rfl, h2, h3⟩
    · rcases hs with hs | hs
      · rw [step_header1_miss crc8 p b hs hab]
        obtain ⟨h1, h2, h3⟩ := ih p (Or.inl hs) hg2
        exact ⟨by rw [h1]; rfl, h2, h3⟩
      · rw [step_header2_miss crc8 p b hs hab hb]
        obtain ⟨h1, h2, h3⟩ :=
          ih { p with currentState := STATE_WAIT_HEADER_1 } (Or.inl rfl) hg2
        exact ⟨by rw [h1]; rfl, h2, h3⟩

/-- C11: frame ordering. For every finite list of `(type, payload)` pairs with
each payload of at most 255 bytes, feeding the concatenation of the frames
`Protocol_SendFrame` emits for them, in list order, to the initial parser
causes exactly one call of `ProcessValidFrame` per pair, in the order of the
list and with each pair's original type and payload. -/
theorem C11_frame_ordering (crc8 : List Nat → Nat) (frames : List (Nat × List Nat))
    (hlen : ∀ f ∈ frames, f.2.length ≤ 255) :
    (feed crc8 Parser.fresh (sendAll crc8 frames)).2 =
      frames.map (fun f => ({ type := f.1, payload := f.2, len := f.2.length } : Dispatch)) :=
  (feed_sendAll crc8 frames Parser.fresh rfl (by simp [Parser.fresh]) hlen).1

theorem C11_frame_ordering_witness :
    (∀ f ∈ [((1 : Nat), [10, 20]), (2, []), (1, [30])], f.2.length ≤ 255) ∧
    (feed (fun xs => xs.sum) Parser.fresh
        (sendAll (fun xs => xs.sum) [(1, [10, 20]), (2, []), (1, [30])])).2 =
      [(1, [10, 20]), (2, []), (1, [30])].map
        (fun f => ({ type := f.1, payload := f.2, len := f.2.length } : Dispatch)) :=
  ⟨by decide, C11_frame_ordering (fun xs => xs.sum) [(1, [10, 20]), (2, []), (1, [30])]
    (by decide)⟩

/-- C15: parser cursor invariant. In every parser state reachable from the
initial statics (`STATE_WAIT_HEADER_1`, `buffer_index = 0`,
`paylen_length = 0`) by feeding any finite byte sequence to
`Protocol_ParseByte`, `buffer_index ≤ paylen_length + 2`, the sum taken in the
natural numbers, so without 8-bit wraparound. -/
theorem C15_cursor_invariant (crc8 : List Nat → Nat) (p : Parser)
    (hreach : Reachable crc8 p) : p.buffer_index ≤ p.paylen_length + 2 :=
  (parserInv_of_reachable crc8 p hreach).2.2.1

theorem C15_cursor_invariant_witness :
    Reachable (fun xs => xs.sum)
        (feed (fun xs => xs.sum) Parser.fresh [0xAB, 0xCD, 1, 255, 7]).1 ∧
      (feed (fun xs => xs.sum) Parser.fresh [0xAB, 0xCD, 1, 255, 7]).1.buffer_index ≤
        (feed (fun xs => xs.sum) Parser.fresh [0xAB, 0xCD, 1, 255, 7]).1.paylen_length + 2 :=
  ⟨⟨[0xAB, 0xCD, 1, 255, 7], by decide, rfl⟩,
    C15_cursor_invariant (fun xs => xs.sum) _ ⟨[0xAB, 0xCD, 1, 255, 7], by decide, rfl⟩⟩

/-- C20: resynchronisation after noise. For every byte sequence `g` that
contains no `0xCD` byte (it may contain and may end with `0xAB` bytes), every
type and every payload of at most 255 bytes, feeding `g` followed by the frame
`Protocol_SendFrame` emits for `(type, payload)` to the initial parser causes
exactly one call of `ProcessValidFrame`, with the original type and payload,
and ends in `STATE_WAIT_HEADER_1`. -/
theorem C20_resync_after_noise (crc8 : List Nat → Nat) (g : List Nat) (type : Nat)
    (payload : List Nat) (hg : 0xCD ∉ g) (hlen : payload.length ≤ 255) :
    (feed crc8 Parser.fresh
        (g ++ Protocol_SendFrame crc8 type payload payload.length)).2 =
        [{ type := type, payload := payload, len := payload.length : Dispatch }] ∧
      (feed crc8 Parser.fresh
        (g ++ Protocol_SendFrame crc8 type payload payload.length)).1.currentState =
        STATE_WAIT_HEADER_1 := by
  obtain ⟨h1, h2, h3⟩ := feed_noise crc8 g Parser.fresh (Or.inl rfl) hg
  have hstep : Protocol_ParseByte crc8 (feed crc8 Parser.fresh g).1 0xAB =
      ({ (feed crc8 Parser.fresh g).1 with currentState := STATE_WAIT_HEADER_2 }, []) := by
    rcases h2 with hs | hs
    · exact step_header1_hit crc8 _ hs
    · exact step_header2_again crc8 _ hs
  obtain ⟨k1, k2, _⟩ := feed_frame2 crc8
    { (feed crc8 Parser.fresh g).1 with currentState := STATE_WAIT_HEADER_2 } type
    (crc8 (type :: payload.length :: payload) % 256) payload rfl
    (by rw [h3]; simp [Parser.fresh]) hlen
  rw [if_pos rfl] at k1
  have e : [0xAB, 0xCD, type, payload.length] ++ payload ++
      [crc8 (type :: payload.length :: payload) % 256] =
      0xAB :: ([0xCD, type, payload.length] ++ payload ++
        [crc8 (type :: payload.length :: payload) % 256]) := rfl
  rw [sendFrame_eq crc8 type payload hlen, feed_append, h1, e, feed_cons, hstep]
  exact ⟨by rw [k1]; rfl, k2⟩

theorem C20_resync_after_noise_witness :
    0xCD ∉ [0x00, 0xAB, 0x17, 0xAB] ∧ [5, 6].length ≤ 255 ∧
      (feed (fun xs => xs.sum) Parser.fresh
        ([0x00, 0xAB, 0x17, 0xAB] ++
          Protocol_SendFrame (fun xs => xs.sum) 3 [5, 6] [5, 6].length)).2 =
        [{ type := 3, payload := [5, 6], len := [5, 6].length : Dispatch }] :=
  ⟨by decide, by decide,
    (C20_resync_after_noise (fun xs => xs.sum) [0x00, 0xAB, 0x17, 0xAB] 3 [5, 6]
      (by decide) (by decide)).1⟩

/-- C14: dispatch is single-match with a fallback. For every type, payload and
`len`, `ProcessValidFrame` invokes exactly one handler:
`HandleDronePosition(payload, len)` when the type is `DRONE_POSITION` (0x01),
and `HandleUnknownType(type)` for every other type value. -/
theorem C14_dispatch (type : Nat) (payload : List Nat) (len : Nat) :
    DRONE_POSITION = 0x01 ∧
      (ProcessValidFrame type payload len).length = 1 ∧
      ProcessValidFrame type payload len =
        (if type = 0x01 then [HandlerCall.HandleDronePosition payload len]
         else [HandlerCall.HandleUnknownType type]) := by
  refine ⟨rfl, ?_, rfl⟩
  unfold ProcessValidFrame
  split <;> rfl

/-! ## Lemmas: the parser with a configured maximum -/

theorem parserInvM_fresh (M : Nat) : ParserInvM M (Parser.freshM M) := by
  refine ⟨?_, trivial⟩
  simp only [Parser.freshM, List.length_replicate]
  omega

/-- One step keeps the invariant, stores inside `frame_buffer` and passes at
most `M + 2` bytes to the checksum function. -/
theorem parserInvM_step (M : Nat) (crc8 : List Nat → Nat) (p : Parser) (b : Nat)
    (hM : M ≤ 255) (h : ParserInvM M p) :
    ParserInvM M (Protocol_ParseByteM M crc8 p b).next ∧
      (∀ i ∈ (Protocol_ParseByteM M crc8 p b).stores, i < M + 2) ∧
      (∀ n ∈ (Protocol_ParseByteM M crc8 p b).crcLens, n ≤ M + 2) := by
  obtain ⟨h1, h2⟩ := h
  unfold Protocol_ParseByteM
  cases hs : p.currentState <;> rw [hs] at h2 <;> simp only at h2 ⊢
  · split
    · exact ⟨⟨h1, trivial⟩, by simp, by simp⟩
    · refine ⟨⟨h1, ?_⟩, by simp, by simp⟩
      rw [hs]; trivial
  · split
    · exact ⟨⟨h1, rfl⟩, by simp, by simp⟩
    · refine ⟨⟨h1, ?_⟩, by simp, by simp⟩
      by_cases hab : b = FRAME_HEADER_1 <;> simp [hab]
  · refine ⟨⟨by simpa [Parser.store] using h1, ?_⟩, ?_, by simp⟩
    · simp [Parser.store, h2]
    · simp [h2]
  · split
    · exact ⟨⟨h1, trivial⟩, by simp, by simp⟩
    · rename_i hle
      simp only [gt_iff_lt, not_lt] at hle
      split
      · rename_i h0
        simp only [Parser.store] at h0
        refine ⟨⟨by simpa [Parser.store] using h1, ?_⟩, ?_, by simp⟩
        · simp only [Parser.store]; omega
        · simp [h2]
      · rename_i h0
        simp only [Parser.store] at h0
        refine ⟨⟨by simpa [Parser.store] using h1, ?_⟩, ?_, by simp⟩
        · simp only [Parser.store, h2]
          refine ⟨by decide, ?_, hle⟩
          omega
        · simp [h2]
  · obtain ⟨k1, k2, k3⟩ := h2
    have hmod : (p.buffer_index + 1) % 65536 = p.buffer_index + 1 := by omega
    split
    · refine ⟨⟨by simpa [Parser.store] using h1, ?_⟩, ?_, by simp⟩
      · simpa [Parser.store] using k3
      · simp; omega
    · rename_i hne
      simp only [Parser.store, hmod] at hne
      refine ⟨⟨by simpa [Parser.store] using h1, ?_⟩, ?_, by simp⟩
      · simp only [Parser.store, hmod, hs]
        exact ⟨by omega, by omega, k3⟩
      · simp; omega
  · refine ⟨⟨h1, trivial⟩, by simp, ?_⟩
    simp
    omega

theorem parserInvM_feed (M : Nat) (crc8 : List Nat → Nat) (hM : M ≤ 255) (bs : List Nat) :
    ∀ p : Parser, ParserInvM M p → ParserInvM M (feedM M crc8 p bs) := by
  induction bs with
  | nil => intro p h; exact h
  | cons b bs ih =>
    intro p h
    exact ih _ (parserInvM_step M crc8 p b hM h).1

theorem parserInvM_of_reachable (M : Nat) (crc8 : List Nat → Nat) (hM : M ≤ 255) (p : Parser)
    (h : ReachableM M crc8 p) : ParserInvM M p := by
  obtain ⟨bs, _, rfl⟩ := h
  exact parserInvM_feed M crc8 hM bs _ (parserInvM_fresh M)

theorem step_length_oversize (M : Nat) (crc8 : List Nat → Nat) (p : Parser) (b : Nat)
    (hs : p.currentState = STATE_READ_LENGTH) (hb : b > M) :
    Protocol_ParseByteM M crc8 p b =
      { next := { p with paylen_length := b, currentState := STATE_WAIT_HEADER_1 }
        calls := [], stores := [], crcLens := [] } := by
  unfold Protocol_ParseByteM
  rw [hs]
  exact if_pos hb

/-- C13: parser oversize abort without overrun. For every configured maximum
`M` in 0..255 (`MAX_PAYLOAD_SIZE = M`, `frame_buffer` of `M + 2` bytes) and
every parser state reached from the initial statics by a byte sequence: a
length byte greater than `M` received in `STATE_READ_LENGTH` moves the parser
to `STATE_WAIT_HEADER_1` without storing into `frame_buffer` and without a
call of `ProcessValidFrame`; and for every byte, every index the step stores
at is below `M + 2`, the size of `frame_buffer`, and the range
`[0, paylen_length + 2)` it passes to the checksum function ends at or below
`M + 2`. -/
theorem C13_oversize_abort (M : Nat) (crc8 : List Nat → Nat) (p : Parser) (b : Nat)
    (hM : M ≤ 255) (hreach : ReachableM M crc8 p) :
    (p.currentState = STATE_READ_LENGTH → b > M →
        (Protocol_ParseByteM M crc8 p b).next.currentState = STATE_WAIT_HEADER_1 ∧
        (Protocol_ParseByteM M crc8 p b).next.frame_buffer = p.frame_buffer ∧
        (Protocol_ParseByteM M crc8 p b).stores = [] ∧
        (Protocol_ParseByteM M crc8 p b).calls = []) ∧
      p.frame_buffer.length = M + 2 ∧
      (∀ i ∈ (Protocol_ParseByteM M crc8 p b).stores, i < M + 2) ∧
      (∀ n ∈ (Protocol_ParseByteM M crc8 p b).crcLens,
        n = p.paylen_length + 2 ∧ n ≤ M + 2) := by
  have hinv := parserInvM_of_reachable M crc8 hM p hreach
  obtain ⟨_, h2, h3⟩ := parserInvM_step M crc8 p b hM hinv
  refine ⟨?_, hinv.1, h2, ?_⟩
  · intro hs hb
    rw [step_length_oversize M crc8 p b hs hb]
    exact ⟨rfl, rfl, rfl, rfl⟩
  · intro n hn
    refine ⟨?_, h3 n hn⟩
    unfold Protocol_ParseByteM at hn
    cases hs : p.currentState <;> rw [hs] at hn <;> simp only [] at hn
    · split at hn <;> simp at hn
    · split at hn <;> simp at hn
    · simp at hn
    · split at hn
      · simp at hn
      · split at hn <;> simp at hn
    · split at hn <;> simp at hn
    · simpa using hn

theorem C13_oversize_abort_witness :
    (4 : Nat) ≤ 255 ∧
      ReachableM 4 (fun xs => xs.sum)
        (feedM 4 (fun xs => xs.sum) (Parser.freshM 4) [0xAB, 0xCD, 1]) ∧
      (Protocol_ParseByteM 4 (fun xs => xs.sum)
        (feedM 4 (fun xs => xs.sum) (Parser.freshM 4) [0xAB, 0xCD, 1]) 5).next.currentState =
        STATE_WAIT_HEADER_1 :=
  ⟨by decide, ⟨[0xAB, 0xCD, 1], by decide, rfl⟩,
    ((C13_oversize_abort 4 (fun xs => xs.sum)
      (feedM 4 (fun xs => xs.sum) (Parser.freshM 4) [0xAB, 0xCD, 1]) 5 (by decide)
      ⟨[0xAB, 0xCD, 1], by decide, rfl⟩).1 (by decide) (by decide)).1⟩

/-! ## Lemmas: stale statics -/

theorem step_length_big (crc8 : List Nat → Nat) (p : Parser) (b : Nat)
    (hs : p.currentState = STATE_READ_LENGTH) (hb : 255 < b) :
    Protocol_ParseByte crc8 p b =
      ({ p with paylen_length := b, currentState := STATE_WAIT_HEADER_1 }, []) := by
  have h1 : b > MAX_PAYLOAD_SIZE := by simp only [MAX_PAYLOAD_SIZE]; omega
  unfold Protocol_ParseByte
  rw [hs]
  exact if_pos h1

theorem take_succ_set_congr (l1 l2 : List Nat) (n b : Nat) (h1 : n < l1.length)
    (h2 : n < l2.length) (h : l1.take n = l2.take n) :
    (l1.set n b).take (n + 1) = (l2.set n b).take (n + 1) := by
  rw [take_succ_set l1 n b h1, take_succ_set l2 n b h2, h]

/-- One step from two states that agree: the same calls, and states that
agree again. -/
theorem sameParse_step (crc8 : List Nat → Nat) (p q : Parser) (b : Nat)
    (h : SameParse p q) :
    (Protocol_ParseByte crc8 p b).2 = (Protocol_ParseByte crc8 q b).2 ∧
      SameParse (Protocol_ParseByte crc8 p b).1 (Protocol_ParseByte crc8 q b).1 := by
  obtain ⟨hst, hp, hq, h4⟩ := h
  have hp2 : 257 = p.frame_buffer.length := by rw [hp]; rfl
  have hq2 : 257 = q.frame_buffer.length := by rw [hq]; rfl
  cases hs : p.currentState <;> rw [hs] at h4 hst <;> simp only at h4
  · by_cases hc : b = 0xAB
    · subst hc
      rw [step_header1_hit crc8 p hs, step_header1_hit crc8 q hst.symm]
      exact ⟨rfl, rfl, hp, hq, trivial⟩
    · rw [step_header1_miss crc8 p b hs hc, step_header1_miss crc8 q b hst.symm hc]
      refine ⟨rfl, by rw [hs, ← hst], hp, hq, ?_⟩
      rw [hs]; trivial
  · by_cases hc : b = 0xCD
    · subst hc
      rw [step_header2_hit crc8 p hs, step_header2_hit crc8 q hst.symm]
      exact ⟨rfl, rfl, hp, hq, rfl, rfl⟩
    · by_cases hc1 : b = 0xAB
      · subst hc1
        rw [step_header2_again crc8 p hs, step_header2_again crc8 q hst.symm]
        exact ⟨rfl, rfl, hp, hq, trivial⟩
      · rw [step_header2_miss crc8 p b hs hc1 hc, step_header2_miss crc8 q b hst.symm hc1 hc]
        exact ⟨rfl, rfl, hp, hq, trivial⟩
  · obtain ⟨k1, k2⟩ := h4
    rw [step_type crc8 p b hs, step_type crc8 q b hst.symm]
    refine ⟨rfl, rfl, by simpa using hp, by simpa using hq, ?_⟩
    simp only [k1, k2]
    refine ⟨by trivial, by trivial, by trivial, ?_⟩
    exact take_succ_set_congr _ _ 0 b (by omega) (by omega) rfl
  · obtain ⟨k1, k2, k3, k4⟩ := h4
    by_cases hbig : 255 < b
    · rw [step_length_big crc8 p b hs hbig, step_length_big crc8 q b hst.symm hbig]
      exact ⟨rfl, rfl, hp, hq, trivial⟩
    · by_cases hc : b = 0
      · subst hc
        rw [step_length_zero crc8 p hs, step_length_zero crc8 q hst.symm]
        refine ⟨rfl, rfl, by simpa using hp, by simpa using hq, ?_⟩
        simp only [k1, k2]
        refine ⟨by trivial, by trivial, k3, ?_⟩
        exact take_succ_set_congr _ _ 1 0 (by omega) (by omega) k4
      · rw [step_length_pos crc8 p b hs hc (by omega),
          step_length_pos crc8 q b hst.symm hc (by omega)]
        refine ⟨rfl, rfl, by simpa using hp, by simpa using hq, ?_⟩
        simp only [k1, k2]
        refine ⟨by trivial, by trivial, by omega, by omega, by trivial, k3, ?_⟩
        exact take_succ_set_congr _ _ 1 b (by omega) (by omega) k4
  · obtain ⟨k1, k2, k3, k4, k5, k6, k7⟩ := h4
    have hmod : (p.buffer_index + 1) % 65536 = p.buffer_index + 1 := by omega
    have hmodq : (q.buffer_index + 1) % 65536 = q.buffer_index + 1 := by omega
    have htake : (p.frame_buffer.set p.buffer_index b).take (p.buffer_index + 1) =
        (q.frame_buffer.set p.buffer_index b).take (p.buffer_index + 1) :=
      take_succ_set_congr _ _ _ b (by omega) (by omega) k7
    by_cases hc : p.buffer_index + 1 = p.paylen_length + 2
    · rw [step_payload_last crc8 p b hs (by simp only [Parser.store]; rw [hmod]; exact hc),
        step_payload_last crc8 q b hst.symm
          (by simp only [Parser.store]; rw [hmodq, ← k1, ← k5]; exact hc)]
      refine ⟨rfl, rfl, by simpa [Parser.store] using hp, by simpa [Parser.store] using hq, ?_⟩
      simp only [Parser.store]
      refine ⟨k5, k4, k6, ?_⟩
      rw [← k1, ← hc]
      exact htake
    · rw [step_payload_more crc8 p b hs (by simp only [Parser.store]; rw [hmod]; exact hc),
        step_payload_more crc8 q b hst.symm
          (by simp only [Parser.store]; rw [hmodq, ← k1, ← k5]; exact hc)]
      refine ⟨rfl, ?_, by simpa [Parser.store] using hp, by simpa [Parser.store] using hq, ?_⟩
      · simp only [Parser.store]; rw [hs, ← hst]
      · simp only [Parser.store, hs, hmod, hmodq]
        refine ⟨by omega, by omega, by omega, k4, k5, k6, ?_⟩
        rw [← k1]
        exact htake
  · obtain ⟨k1, k2, k3, k4⟩ := h4
    rw [step_crc crc8 p b hs, step_crc crc8 q b hst.symm]
    have hpay : (p.frame_buffer.drop 2).take p.paylen_length =
        (q.frame_buffer.drop 2).take p.paylen_length := by
      rw [List.take_drop, List.take_drop, Nat.add_comm 2, k4]
    refine ⟨?_, rfl, hp, hq, trivial⟩
    simp only [← k1, ← k3, k4, hpay]

theorem sameParse_feed (crc8 : List Nat → Nat) (bs : List Nat) :
    ∀ p q : Parser, SameParse p q →
      (feed crc8 p bs).2 = (feed crc8 q bs).2 ∧
        SameParse (feed crc8 p bs).1 (feed crc8 q bs).1 := by
  induction bs with
  | nil => intro p q h; exact ⟨rfl, h⟩
  | cons b bs ih =>
    intro p q h
    obtain ⟨h1, h2⟩ := sameParse_step crc8 p q b h
    obtain ⟨k1, k2⟩ := ih _ _ h2
    rw [feed_cons, feed_cons, h1, k1]
    exact ⟨rfl, k2⟩

/-- C19: stale scratch data never leaks into a dispatch. For every two parser
states that are both in `STATE_WAIT_HEADER_1` (with `frame_buffer` of
`FRAME_BUFFER_SIZE` bytes) but differ arbitrarily in the contents of
`frame_buffer`, in `received_type`, `paylen_length` and `buffer_index`, and
for every byte sequence, feeding the sequence to `Protocol_ParseByte` from
either state produces the same sequence of `ProcessValidFrame` calls (types,
payload bytes and lengths) and ends in the same state kind. -/
theorem C19_no_stale_leak (crc8 : List Nat → Nat) (p q : Parser) (bs : List Nat)
    (hp : p.currentState = STATE_WAIT_HEADER_1) (hq : q.currentState = STATE_WAIT_HEADER_1)
    (hpb : p.frame_buffer.length = FRAME_BUFFER_SIZE)
    (hqb : q.frame_buffer.length = FRAME_BUFFER_SIZE) :
    (feed crc8 p bs).2 = (feed crc8 q bs).2 ∧
      (feed crc8 p bs).1.currentState = (feed crc8 q bs).1.currentState := by
  have h : SameParse p q := by
    refine ⟨by rw [hp, hq], hpb, hqb, ?_⟩
    rw [hp]; trivial
  obtain ⟨h1, h2⟩ := sameParse_feed crc8 bs p q h
  exact ⟨h1, h2.1⟩

theorem C19_no_stale_leak_witness :
    Parser.fresh.currentState = STATE_WAIT_HEADER_1 ∧
      ({ Parser.fresh with frame_buffer := List.replicate FRAME_BUFFER_SIZE 9,
                           received_type := 3, paylen_length := 200,
                           buffer_index := 77 } : Parser).currentState =
        STATE_WAIT_HEADER_1 ∧
      Parser.fresh.frame_buffer.length = FRAME_BUFFER_SIZE ∧
      ({ Parser.fresh with frame_buffer := List.replicate FRAME_BUFFER_SIZE 9,
                           received_type := 3, paylen_length := 200,
                           buffer_index := 77 } : Parser).frame_buffer.length =
        FRAME_BUFFER_SIZE ∧
      (feed (fun xs => xs.sum) Parser.fresh [0xAB, 0xCD, 1, 2, 5, 6, 14]).2 =
        (feed (fun xs => xs.sum)
          { Parser.fresh with frame_buffer := List.replicate FRAME_BUFFER_SIZE 9,
                              received_type := 3, paylen_length := 200,
                              buffer_index := 77 } [0xAB, 0xCD, 1, 2, 5, 6, 14]).2 :=
  ⟨rfl, rfl, by simp [Parser.fresh], by simp,
    (C19_no_stale_leak (fun xs => xs.sum) Parser.fresh
      { Parser.fresh with frame_buffer := List.replicate FRAME_BUFFER_SIZE 9,
                          received_type := 3, paylen_length := 200,
                          buffer_index := 77 } [0xAB, 0xCD, 1, 2, 5, 6, 14]
      rfl rfl (by simp [Parser.fresh]) (by simp)).1⟩

/-- C16: ring-buffer index invariant. For every size of at least 1,
`RingBuffer_Init` establishes, and every `RingBuffer_Write` (whether it
returns or enters its endless loop) and every `RingBuffer_Read` preserves, the
predicate `head < size` and `tail < size` and (`is_full` implies
`head = tail`). -/
theorem C16_index_invariant (buffer : List Nat) (size : Nat) (rb : RingBuffer)
    (byte : Nat) (hsize : 1 ≤ size) (hinv : IndexInv rb) :
    IndexInv (RingBuffer_Init buffer size) ∧
      (∀ ok rb2, RingBuffer_Write rb byte = WriteOutcome.returned ok rb2 → IndexInv rb2) ∧
      (∀ rb2, RingBuffer_Write rb byte = WriteOutcome.spins rb2 → IndexInv rb2) ∧
      IndexInv (RingBuffer_Read rb byte).2.2 := by
  obtain ⟨h1, h2, h3⟩ := hinv
  have hpos : 0 < rb.size := by omega
  refine ⟨⟨hsize, hsize, by simp [RingBuffer_Init]⟩, ?_, ?_, ?_⟩
  · intro ok rb2 hw
    by_cases hf : rb.is_full = true
    · simp only [RingBuffer_Write, hf, if_true, WriteOutcome.returned.injEq] at hw
      rw [← hw.2]
      exact ⟨h1, h2, h3⟩
    · have hf2 : rb.is_full = false := by simpa using hf
      by_cases he : rb.head = (rb.tail + 1) % rb.size
      · rw [write_meets_head rb byte hf2 he] at hw
        cases hw
      · rw [write_not_full rb byte hf2 he] at hw
        simp only [WriteOutcome.returned.injEq] at hw
        rw [← hw.2]
        exact ⟨h1, Nat.mod_lt _ hpos, by simp [hf2]⟩
  · intro rb2 hw
    by_cases hf : rb.is_full = true
    · simp [RingBuffer_Write, hf] at hw
    · have hf2 : rb.is_full = false := by simpa using hf
      by_cases he : rb.head = (rb.tail + 1) % rb.size
      · rw [write_meets_head rb byte hf2 he] at hw
        simp only [WriteOutcome.spins.injEq] at hw
        rw [← hw]
        exact ⟨h1, Nat.mod_lt _ hpos, fun _ => he⟩
      · rw [write_not_full rb byte hf2 he] at hw
        cases hw
  · by_cases he : RingBuffer_IsEmpty rb = true
    · simp only [RingBuffer_Read, he, if_true]
      exact ⟨h1, h2, h3⟩
    · simp only [RingBuffer_Read, he]
      exact ⟨Nat.mod_lt _ hpos, h2, by simp⟩

theorem C16_index_invariant_witness :
    (1 : Nat) ≤ 3 ∧
      IndexInv { buffer := [4, 5, 6], size := 3, head := 1, tail := 0, is_full := false } ∧
      IndexInv (RingBuffer_Init [0, 0, 0] 3) ∧
      IndexInv (RingBuffer_Read
        { buffer := [4, 5, 6], size := 3, head := 1, tail := 0, is_full := false } 0).2.2 :=
  ⟨by decide, ⟨by decide, by decide, by decide⟩,
    (C16_index_invariant [0, 0, 0] 3
      { buffer := [4, 5, 6], size := 3, head := 1, tail := 0, is_full := false } 0
      (by decide) ⟨by decide, by decide, by decide⟩).1,
    (C16_index_invariant [0, 0, 0] 3
      { buffer := [4, 5, 6], size := 3, head := 1, tail := 0, is_full := false } 0
      (by decide) ⟨by decide, by decide, by decide⟩).2.2.2⟩

/-! ## Lemmas: the ring buffer as a queue -/

theorem add_mod_ne (a k s : Nat) (ha : a < s) (hk0 : 0 < k) (hk : k < s) :
    (a + k) % s ≠ a := by
  by_cases h : a + k < s
  · rw [Nat.mod_eq_of_lt h]; omega
  · rw [Nat.mod_eq_sub_mod (by omega), Nat.mod_eq_of_lt (by omega)]
    omega

theorem holds_init (buffer : List Nat) (size : Nat) (hsize : 1 ≤ size)
    (hbuf : buffer.length = size) : Holds (RingBuffer_Init buffer size) 0 :=
  ⟨hbuf, hsize, hsize, rfl, Nat.mod_eq_of_lt hsize, hsize⟩

theorem holds_empty (rb : RingBuffer) (n : Nat) (h : Holds rb n) (he : rb.head = rb.tail) :
    n = 0 := by
  obtain ⟨_, h2, _, _, h5, h6⟩ := h
  by_contra hn
  exact add_mod_ne rb.head n rb.size h2 (by omega) h6 (by rw [h5, he])

theorem queuedFrom_set_last (buffer : List Nat) (s t b : Nat) (ht : t < buffer.length) (n : Nat) :
    ∀ head, head < s → n < s → (head + n) % s = t →
      queuedFrom (buffer.set t b) s head (n + 1) = queuedFrom buffer s head n ++ [b] := by
  induction n with
  | zero =>
    intro head hh _ hm
    rw [Nat.add_zero, Nat.mod_eq_of_lt hh] at hm
    subst hm
    simp [queuedFrom, List.getD_eq_getElem?_getD, List.getElem?_set_self ht]
  | succ n ih =>
    intro head hh hn hm
    have hne : head ≠ t := by
      intro he
      exact add_mod_ne head (n + 1) s hh (by omega) hn (by rw [hm, he])
    have hs : 0 < s := by omega
    have hm2 : ((head + 1) % s + n) % s = t := by
      rw [Nat.mod_add_mod, ← hm]
      congr 1
      omega
    have := ih ((head + 1) % s) (Nat.mod_lt _ hs) (by omega) hm2
    rw [queuedFrom, this]
    simp only [queuedFrom, List.cons_append, List.getD_eq_getElem?_getD]
    rw [List.getElem?_set_ne (Ne.symm hne)]

theorem holds_write (rb : RingBuffer) (n b : Nat) (h : Holds rb n)
    (hne : rb.head ≠ (rb.tail + 1) % rb.size) :
    Holds { rb with buffer := rb.buffer.set rb.tail b, tail := (rb.tail + 1) % rb.size }
        (n + 1) ∧
      queuedFrom (rb.buffer.set rb.tail b) rb.size rb.head (n + 1) =
        queuedFrom rb.buffer rb.size rb.head n ++ [b] := by
  obtain ⟨h1, h2, h3, h4, h5, h6⟩ := h
  have hs : 0 < rb.size := by omega
  have hm : (rb.head + (n + 1)) % rb.size = (rb.tail + 1) % rb.size := by
    rw [← h5, Nat.mod_add_mod, Nat.add_assoc]
  have hn : n + 1 < rb.size := by
    by_contra hc
    have hn2 : n + 1 = rb.size := by omega
    rw [hn2, Nat.add_mod_right, Nat.mod_eq_of_lt h2] at hm
    exact hne hm
  refine ⟨⟨by simpa using h1, h2, Nat.mod_lt _ hs, h4, hm, hn⟩, ?_⟩
  exact queuedFrom_set_last rb.buffer rb.size rb.tail b (by omega) n rb.head h2 h6 h5

theorem holds_read (rb : RingBuffer) (n : Nat) (h : Holds rb n) (hne : rb.head ≠ rb.tail) :
    ∃ m, n = m + 1 ∧
      Holds { rb with head := (rb.head + 1) % rb.size, is_full := false } m := by
  obtain ⟨h1, h2, h3, h4, h5, h6⟩ := h
  have hs : 0 < rb.size := by omega
  cases n with
  | zero =>
    rw [Nat.add_zero, Nat.mod_eq_of_lt h2] at h5
    exact absurd h5 hne
  | succ m =>
    refine ⟨m, rfl, h1, Nat.mod_lt _ hs, h3, rfl, ?_, (by show m < rb.size; omega)⟩
    show ((rb.head + 1) % rb.size + m) % rb.size = rb.tail
    rw [Nat.mod_add_mod, ← h5]
    congr 1
    omega

theorem read_empty (rb : RingBuffer) (byte : Nat) (hf : rb.is_full = false)
    (he : rb.head = rb.tail) : RingBuffer_Read rb byte = (false, byte, rb) := by
  simp [RingBuffer_Read, RingBuffer_IsEmpty, hf, he]

theorem read_nonempty (rb : RingBuffer) (byte : Nat) (hne : rb.head ≠ rb.tail) :
    RingBuffer_Read rb byte =
      (true, rb.buffer.getD rb.head 0,
        { rb with head := (rb.head + 1) % rb.size, is_full := false }) := by
  simp [RingBuffer_Read, RingBuffer_IsEmpty, hne]

/-- A run in which every call returns follows the abstract queue, and the
bytes accepted are the bytes delivered followed by the bytes still queued. -/
theorem runOps_sim (ops : List Op) :
    ∀ (rb : RingBuffer) (byte n : Nat) (evs : List Event) (rb2 : RingBuffer),
      Holds rb n → runOps rb byte ops = some (evs, rb2) →
      evs = fifoRun (queuedFrom rb.buffer rb.size rb.head n) byte ops ∧
        ∃ m, Holds rb2 m ∧ rb2.size = rb.size ∧
          queuedFrom rb.buffer rb.size rb.head n ++ accepted evs =
            delivered evs ++ queuedFrom rb2.buffer rb2.size rb2.head m := by
  induction ops with
  | nil =>
    intro rb byte n evs rb2 h hrun
    simp only [runOps, Option.some.injEq, Prod.mk.injEq] at hrun
    obtain ⟨rfl, rfl⟩ := hrun
    exact ⟨by simp [fifoRun], n, h, rfl, by simp [accepted, delivered]⟩
  | cons op ops ih =>
    intro rb byte n evs rb2 h hrun
    cases op with
    | write b =>
      by_cases hne : rb.head = (rb.tail + 1) % rb.size
      · simp [runOps, write_meets_head rb b h.2.2.2.1 hne] at hrun
      · simp only [runOps, write_not_full rb b h.2.2.2.1 hne] at hrun
        obtain ⟨hh, hq⟩ := holds_write rb n b h hne
        cases hr : runOps
            { rb with buffer := rb.buffer.set rb.tail b, tail := (rb.tail + 1) % rb.size }
            byte ops with
        | none => rw [hr] at hrun; cases hrun
        | some r =>
          obtain ⟨evs1, rb3⟩ := r
          rw [hr] at hrun
          simp only [Option.some.injEq, Prod.mk.injEq] at hrun
          obtain ⟨rfl, rfl⟩ := hrun
          obtain ⟨k1, m, k2, k3, k4⟩ := ih _ byte (n + 1) evs1 rb3 hh hr
          simp only [hq] at k1 k4
          refine ⟨by simp only [fifoRun]; rw [← k1], m, k2, k3, ?_⟩
          simp only [accepted, delivered]
          rw [← k4]
          simp
    | read =>
      by_cases he : rb.head = rb.tail
      · have hn : n = 0 := holds_empty rb n h he
        subst hn
        simp only [runOps, read_empty rb byte h.2.2.2.1 he] at hrun
        cases hr : runOps rb byte ops with
        | none => rw [hr] at hrun; cases hrun
        | some r =>
          obtain ⟨evs1, rb3⟩ := r
          rw [hr] at hrun
          simp only [Option.some.injEq, Prod.mk.injEq] at hrun
          obtain ⟨rfl, rfl⟩ := hrun
          obtain ⟨k1, m, k2, k3, k4⟩ := ih rb byte 0 evs1 rb3 h hr
          simp only [queuedFrom] at k1 k4 ⊢
          refine ⟨by simp only [fifoRun]; rw [← k1], m, k2, k3, ?_⟩
          simp only [accepted, delivered]
          exact k4
      · obtain ⟨m0, rfl, hh⟩ := holds_read rb n h he
        simp only [runOps, read_nonempty rb byte he] at hrun
        cases hr : runOps { rb with head := (rb.head + 1) % rb.size, is_full := false }
            (rb.buffer.getD rb.head 0) ops with
        | none => rw [hr] at hrun; cases hrun
        | some r =>
          obtain ⟨evs1, rb3⟩ := r
          rw [hr] at hrun
          simp only [Option.some.injEq, Prod.mk.injEq] at hrun
          obtain ⟨rfl, rfl⟩ := hrun
          obtain ⟨k1, m, k2, k3, k4⟩ := ih _ (rb.buffer.getD rb.head 0) m0 evs1 rb3 hh hr
          simp only [] at k1 k4
          refine ⟨by simp only [queuedFrom, fifoRun]; rw [← k1], m, k2, k3, ?_⟩
          simp only [queuedFrom, accepted, delivered, List.cons_append]
          rw [k4]

theorem queuedFrom_length (buffer : List Nat) (s n : Nat) :
    ∀ head, (queuedFrom buffer s head n).length = n := by
  induction n with
  | zero => intro head; rfl
  | succ n ih => intro head; simp [queuedFrom, ih]

/-- In a run of the abstract queue a read fails exactly when everything
accepted so far has been delivered. -/
theorem fifoRun_read_fails (ops : List Op) :
    ∀ (q : List Nat) (byte : Nat) (acc del : List Nat), acc = del ++ q →
      ∀ (pre : List Event) (ok : Bool) (b : Nat) (post : List Event),
        fifoRun q byte ops = pre ++ Event.readOut ok b :: post →
        (ok = false ↔ del ++ delivered pre = acc ++ accepted pre) := by
  induction ops with
  | nil =>
    intro q byte acc del _ pre ok b post h
    simp [fifoRun] at h
  | cons op ops ih =>
    intro q byte acc del hq pre ok b post h
    cases op with
    | write w =>
      simp only [fifoRun] at h
      cases pre with
      | nil => simp at h
      | cons e pre2 =>
        simp only [List.cons_append, List.cons.injEq] at h
        obtain ⟨rfl, h2⟩ := h
        have := ih (q ++ [w]) byte (acc ++ [w]) del (by rw [hq, List.append_assoc])
          pre2 ok b post h2
        simpa [accepted, delivered] using this
    | read =>
      cases q with
      | nil =>
        simp only [fifoRun] at h
        cases pre with
        | nil =>
          simp only [List.nil_append, List.cons.injEq, Event.readOut.injEq] at h
          obtain ⟨⟨rfl, _⟩, _⟩ := h
          simp [accepted, delivered, hq]
        | cons e pre2 =>
          simp only [List.cons_append, List.cons.injEq] at h
          obtain ⟨rfl, h2⟩ := h
          have := ih [] byte acc del hq pre2 ok b post h2
          simpa [accepted, delivered] using this
      | cons x q2 =>
        simp only [fifoRun] at h
        cases pre with
        | nil =>
          simp only [List.nil_append, List.cons.injEq, Event.readOut.injEq] at h
          obtain ⟨⟨rfl, _⟩, _⟩ := h
          simp only [accepted, delivered, List.append_nil, hq]
          constructor
          · intro hc; cases hc
          · intro hc
            have hl := congrArg List.length hc
            simp at hl
        | cons e pre2 =>
          simp only [List.cons_append, List.cons.injEq] at h
          obtain ⟨rfl, h2⟩ := h
          have := ih q2 x acc (del ++ [x]) (by rw [hq, List.append_assoc]; rfl)
            pre2 ok b post h2
          simpa [accepted, delivered] using this

/-- With `size = 1` no write of a run in which every call returns is
accepted: each write would make `tail` meet `head`. -/
theorem runOps_size_one (ops : List Op) :
    ∀ (rb : RingBuffer) (byte n : Nat) (evs : List Event) (rb2 : RingBuffer),
      Holds rb n → rb.size = 1 → runOps rb byte ops = some (evs, rb2) →
      accepted evs = [] := by
  induction ops with
  | nil =>
    intro rb byte n evs rb2 _ _ hrun
    simp only [runOps, Option.some.injEq, Prod.mk.injEq] at hrun
    obtain ⟨rfl, _⟩ := hrun
    rfl
  | cons op ops ih =>
    intro rb byte n evs rb2 h h1 hrun
    have hh : rb.head = 0 := by have := h.2.1; omega
    have ht : rb.tail = 0 := by have := h.2.2.1; omega
    cases op with
    | write b =>
      have he : rb.head = (rb.tail + 1) % rb.size := by rw [hh, ht, h1]
      simp [runOps, write_meets_head rb b h.2.2.2.1 he] at hrun
    | read =>
      have he : rb.head = rb.tail := by rw [hh, ht]
      simp only [runOps, read_empty rb byte h.2.2.2.1 he] at hrun
      cases hr : runOps rb byte ops with
      | none => rw [hr] at hrun; cases hrun
      | some r =>
        obtain ⟨evs1, rb3⟩ := r
        rw [hr] at hrun
        simp only [Option.some.injEq, Prod.mk.injEq] at hrun
        obtain ⟨rfl, _⟩ := hrun
        simp only [accepted]
        exact ih rb byte n evs1 rb3 h h1 hr

/-- C17: queue refinement under interleaving. For every size of at least 1
and every interleaved sequence of `RingBuffer_Write` and `RingBuffer_Read`
calls starting from `RingBuffer_Init` (on an array of `size` bytes) in which
every call returns, the buffer simulates the abstract first-in first-out
list: the observed results are those of `fifoRun` from the empty list, the
bytes output by the successful reads are, in order, a prefix of the bytes
accepted by the successful writes (also across index wrap-around), and a read
returns false exactly when every byte accepted before it has already been
read. -/
theorem C17_queue_refinement (buffer : List Nat) (size byte0 : Nat) (ops : List Op)
    (evs : List Event) (rb : RingBuffer) (hsize : 1 ≤ size) (hbuf : buffer.length = size)
    (hrun : runOps (RingBuffer_Init buffer size) byte0 ops = some (evs, rb)) :
    evs = fifoRun [] byte0 ops ∧
      delivered evs <+: accepted evs ∧
      ∀ (pre : List Event) (ok : Bool) (b : Nat) (post : List Event),
        evs = pre ++ Event.readOut ok b :: post →
        (ok = false ↔ delivered pre = accepted pre) := by
  obtain ⟨h1, m, _, _, h4⟩ := runOps_sim ops (RingBuffer_Init buffer size) byte0 0 evs rb
    (holds_init buffer size hsize hbuf) hrun
  simp only [queuedFrom, List.nil_append] at h1 h4
  refine ⟨h1, ⟨_, h4.symm⟩, ?_⟩
  intro pre ok b post hsplit
  have := fifoRun_read_fails ops [] byte0 [] [] rfl pre ok b post (by rw [← h1]; exact hsplit)
  simpa using this

theorem C17_queue_refinement_witness :
    (1 : Nat) ≤ 3 ∧ [0, 0, 0].length = 3 ∧
      runOps (RingBuffer_Init [0, 0, 0] 3) 0
          [Op.read, Op.write 1, Op.write 2, Op.read, Op.write 3, Op.read, Op.write 4,
            Op.read, Op.read, Op.read] =
        some ([Event.readOut false 0, Event.wrote 1 true, Event.wrote 2 true,
            Event.readOut true 1, Event.wrote 3 true, Event.readOut true 2,
            Event.wrote 4 true, Event.readOut true 3, Event.readOut true 4,
            Event.readOut false 4],
          { buffer := [4, 2, 3], size := 3, head := 1, tail := 1, is_full := false }) ∧
      delivered [Event.readOut false 0, Event.wrote 1 true, Event.wrote 2 true,
            Event.readOut true 1, Event.wrote 3 true, Event.readOut true 2,
            Event.wrote 4 true, Event.readOut true 3, Event.readOut true 4,
            Event.readOut false 4] <+:
        accepted [Event.readOut false 0, Event.wrote 1 true, Event.wrote 2 true,
            Event.readOut true 1, Event.wrote 3 true, Event.readOut true 2,
            Event.wrote 4 true, Event.readOut true 3, Event.readOut true 4,
            Event.readOut false 4] :=
  ⟨by decide, by decide, by decide,
    (C17_queue_refinement [0, 0, 0] 3 0
      [Op.read, Op.write 1, Op.write 2, Op.read, Op.write 3, Op.read, Op.write 4,
        Op.read, Op.read, Op.read] _
      { buffer := [4, 2, 3], size := 3, head := 1, tail := 1, is_full := false }
      (by decide) (by decide) (by decide)).2.1⟩

/-- C18: no observable state is full. In every buffer state reached from
`RingBuffer_Init` (size at least 1, on an array of `size` bytes) through
`RingBuffer_Write` and `RingBuffer_Read` calls that all return, `is_full` is
false; so `RingBuffer_Write` does not return false there, the write that
would make `tail` meet `head` does not return, and the bytes accepted and not
yet read number at most `size - 1` (none at all when `size = 1`). -/
theorem C18_never_full (buffer : List Nat) (size byte0 : Nat) (ops : List Op)
    (evs : List Event) (rb : RingBuffer) (b : Nat) (hsize : 1 ≤ size)
    (hbuf : buffer.length = size)
    (hrun : runOps (RingBuffer_Init buffer size) byte0 ops = some (evs, rb)) :
    rb.is_full = false ∧
      (∀ rb2, RingBuffer_Write rb b ≠ WriteOutcome.returned false rb2) ∧
      (rb.head = (rb.tail + 1) % rb.size →
        RingBuffer_Write rb b =
          WriteOutcome.spins
            { rb with buffer := rb.buffer.set rb.tail b, tail := (rb.tail + 1) % rb.size,
                      is_full := true }) ∧
      (delivered evs).length ≤ (accepted evs).length ∧
      (accepted evs).length - (delivered evs).length ≤ size - 1 ∧
      (size = 1 → accepted evs = []) := by
  obtain ⟨_, m, hm, hsz, h4⟩ := runOps_sim ops (RingBuffer_Init buffer size) byte0 0 evs rb
    (holds_init buffer size hsize hbuf) hrun
  simp only [queuedFrom, List.nil_append] at h4
  have hf : rb.is_full = false := hm.2.2.2.1
  have hlen : (accepted evs).length = (delivered evs).length + m := by
    rw [h4, List.length_append, queuedFrom_length]
  have hmlt : m < size := by
    have := hm.2.2.2.2.2
    rw [hsz] at this
    exact this
  refine ⟨hf, ?_, ?_, by omega, by omega, ?_⟩
  · intro rb2 hw
    by_cases he : rb.head = (rb.tail + 1) % rb.size
    · rw [write_meets_head rb b hf he] at hw
      cases hw
    · rw [write_not_full rb b hf he] at hw
      simp at hw
  · intro he
    exact write_meets_head rb b hf he
  · intro h1
    exact runOps_size_one ops (RingBuffer_Init buffer size) byte0 0 evs rb
      (holds_init buffer size hsize hbuf) h1 hrun

theorem C18_never_full_witness :
    (1 : Nat) ≤ 3 ∧ [0, 0, 0].length = 3 ∧
      runOps (RingBuffer_Init [0, 0, 0] 3) 0 [Op.write 1, Op.write 2, Op.read] =
        some ([Event.wrote 1 true, Event.wrote 2 true, Event.readOut true 1],
          { buffer := [1, 2, 0], size := 3, head := 1, tail := 2, is_full := false }) ∧
      ({ buffer := [1, 2, 0], size := 3, head := 1, tail := 2, is_full := false } :
        RingBuffer).is_full = false :=
  ⟨by decide, by decide, by decide,
    (C18_never_full [0, 0, 0] 3 0 [Op.write 1, Op.write 2, Op.read]
      [Event.wrote 1 true, Event.wrote 2 true, Event.readOut true 1]
      { buffer := [1, 2, 0], size := 3, head := 1, tail := 2, is_full := false } 9
      (by decide) (by decide) (by decide)).1⟩

end SerialMsgProto
